import Mathlib

/-!
Verification of the core streaming structures of `process_log.py`:
`TopKDict`, the sliding hourly window in `main`, `BlockList`, `Sessions`,
the per-line orchestration of `main`, and `parse_line` / `LINE_PATTERN`.

Python dictionaries are modelled as association lists kept in insertion
order (Python dicts iterate in insertion order); all timestamps are
modelled as natural numbers of seconds (the log format has second
resolution, and `datetime` subtraction followed by `total_seconds()`
yields the exact difference in seconds).  A truncated natural
subtraction `a - b` agrees with the Python float comparison idioms used
by the source (`x - y > c` and `x - y >= c` with `c ≥ 0`) because a
negative float difference compares the same way as the truncated `0`.
Python exceptions are modelled with `Option`: `none` is an uncaught
exception propagating out of the modelled call.
-/

/-- Association-list lookup, mirroring Python `d[k]` / `k in d`. -/
def alookup {κ α : Type} [DecidableEq κ] : List (κ × α) → κ → Option α
  | [], _ => none
  | e :: rest, k => if e.1 = k then some e.2 else alookup rest k

/-- Association-list store, mirroring Python `d[k] = v`: updates the
entry in place if the key is present (dict order is preserved),
otherwise appends the new entry (insertion order). -/
def aset {κ α : Type} [DecidableEq κ] : List (κ × α) → κ → α → List (κ × α)
  | [], k, v => [(k, v)]
  | e :: rest, k, v => if e.1 = k then (k, v) :: rest else e :: aset rest k v

/-- Association-list removal, mirroring Python `del d[k]`.  Since every
map in the source is built exclusively through `aset` its keys are
unique, so removing every entry with the key equals removing the one
entry the dict holds. -/
def aerase {κ α : Type} [DecidableEq κ] (l : List (κ × α)) (k : κ) : List (κ × α) :=
  l.filter (fun e => !(e.1 = k : Bool))

/-- Keys of an association list, in insertion order. -/
def akeys {κ α : Type} (l : List (κ × α)) : List κ := l.map Prod.fst

theorem akeys_nil {κ α : Type} : akeys ([] : List (κ × α)) = [] := rfl

theorem akeys_cons {κ α : Type} (e : κ × α) (rest : List (κ × α)) :
    akeys (e :: rest) = e.1 :: akeys rest := rfl

theorem akeys_append {κ α : Type} (l l' : List (κ × α)) :
    akeys (l ++ l') = akeys l ++ akeys l' := List.map_append _ l l'

theorem alookup_eq_none_iff {κ α : Type} [DecidableEq κ] (l : List (κ × α)) (k : κ) :
    alookup l k = none ↔ k ∉ akeys l := by
  induction l with
  | nil => simp [alookup, akeys]
  | cons e rest ih =>
    rw [akeys_cons, List.mem_cons]
    by_cases h : e.1 = k
    · subst h
      simp [alookup]
    · rw [alookup, if_neg h, ih]
      constructor
      · intro hk hc
        rcases hc with hc | hc
        · exact h hc.symm
        · exact hk hc
      · intro hk hc
        exact hk (Or.inr hc)

theorem alookup_mem {κ α : Type} [DecidableEq κ] {l : List (κ × α)} {k : κ} {v : α}
    (h : alookup l k = some v) : (k, v) ∈ l := by
  induction l with
  | nil => simp [alookup] at h
  | cons e rest ih =>
    by_cases he : e.1 = k
    · rw [alookup, if_pos he] at h
      have hv : e.2 = v := Option.some.inj h
      have hkv : (k, v) = e := by
        obtain ⟨a, b⟩ := e
        simp only at he hv
        rw [he, hv]
      rw [hkv]
      exact List.mem_cons_self _ _
    · rw [alookup, if_neg he] at h
      exact List.mem_cons_of_mem _ (ih h)

theorem mem_alookup {κ α : Type} [DecidableEq κ] {l : List (κ × α)} {k : κ} {v : α}
    (hnd : (akeys l).Nodup) (h : (k, v) ∈ l) : alookup l k = some v := by
  induction l with
  | nil => simp at h
  | cons e rest ih =>
    rw [akeys_cons, List.nodup_cons] at hnd
    rcases List.mem_cons.mp h with h1 | h1
    · rw [← h1, alookup, if_pos rfl]
    · have hk : e.1 ≠ k := by
        intro he
        apply hnd.1
        rw [he]
        exact List.mem_map_of_mem Prod.fst h1
      rw [alookup, if_neg hk]
      exact ih hnd.2 h1

theorem alookup_aset_self {κ α : Type} [DecidableEq κ] (l : List (κ × α)) (k : κ) (v : α) :
    alookup (aset l k v) k = some v := by
  induction l with
  | nil => simp [aset, alookup]
  | cons e rest ih =>
    by_cases h : e.1 = k <;> simp [aset, alookup, h, ih]

theorem alookup_aset_ne {κ α : Type} [DecidableEq κ] (l : List (κ × α)) (k k' : κ) (v : α)
    (h : k' ≠ k) : alookup (aset l k v) k' = alookup l k' := by
  induction l with
  | nil => simp [aset, alookup, Ne.symm h]
  | cons e rest ih =>
    by_cases he : e.1 = k
    · subst he
      simp [aset, alookup, Ne.symm h]
    · simp only [aset, if_neg he, alookup]
      by_cases he' : e.1 = k' <;> simp [he', ih]

theorem alookup_aerase_self {κ α : Type} [DecidableEq κ] (l : List (κ × α)) (k : κ) :
    alookup (aerase l k) k = none := by
  induction l with
  | nil => rfl
  | cons e rest ih =>
    by_cases h : e.1 = k
    · simpa [aerase, List.filter_cons, h] using ih
    · simpa [aerase, List.filter_cons, h, alookup] using ih

theorem alookup_aerase_ne {κ α : Type} [DecidableEq κ] (l : List (κ × α)) (k k' : κ)
    (h : k' ≠ k) : alookup (aerase l k) k' = alookup l k' := by
  induction l with
  | nil => rfl
  | cons e rest ih =>
    by_cases he : e.1 = k
    · simpa [aerase, List.filter_cons, he, alookup, Ne.symm h] using ih
    · simp only [aerase, List.filter_cons] at *
      by_cases he' : e.1 = k' <;> simp [he, he', alookup, ih, h]

theorem aset_eq_append {κ α : Type} [DecidableEq κ] (l : List (κ × α)) (k : κ) (v : α)
    (h : k ∉ akeys l) : aset l k v = l ++ [(k, v)] := by
  induction l with
  | nil => simp [aset]
  | cons e rest ih =>
    rw [akeys_cons, List.mem_cons, not_or] at h
    have he : e.1 ≠ k := fun hh => h.1 hh.symm
    simp [aset, he, ih h.2]

theorem akeys_aset_of_mem {κ α : Type} [DecidableEq κ] (l : List (κ × α)) (k : κ) (v : α)
    (h : k ∈ akeys l) : akeys (aset l k v) = akeys l := by
  induction l with
  | nil => simp [akeys] at h
  | cons e rest ih =>
    by_cases he : e.1 = k
    · simp [aset, he, akeys_cons]
    · rw [akeys_cons, List.mem_cons] at h
      rcases h with h | h
      · exact absurd h.symm he
      · simp [aset, he, akeys_cons, ih h]

/-! ## TopKDict (`process_log.py` lines 77-139)

The Python class keeps a plain `dict` together with `_sorted_keys`, a
list of the dict's keys ordered by value, largest first.  We model the
pair as a single association list `entries` in `_sorted_keys` order
(each key paired with its dict value).  `_sorted_keys.sort(key=...,
reverse=True)` is a stable sort descending by value; `reverse=True`
flips comparisons but keeps the original order of equal-valued keys, so
it is the stable sort under `valueGe` below, which
`List.insertionSort` computes. -/

/-- Ordering used by `_sorted_keys.sort(key=lambda x: self[x], reverse=True)`:
entry `a` may come before `b` when its value is at least `b`'s. -/
def valueGe (a b : Nat × Nat) : Prop := b.2 ≤ a.2

instance : DecidableRel valueGe := fun a b => Nat.decLe b.2 a.2
instance : IsTotal (Nat × Nat) valueGe := ⟨fun a b => Nat.le_total b.2 a.2⟩
instance : IsTrans (Nat × Nat) valueGe := ⟨fun _ _ _ h1 h2 => Nat.le_trans h2 h1⟩

/-- The re-sort performed at the end of `TopKDict.__setitem__`. -/
def resort (l : List (Nat × Nat)) : List (Nat × Nat) := l.insertionSort valueGe

structure TopKDict where
  k : Nat
  entries : List (Nat × Nat)
  deriving DecidableEq, Repr

/-- Constructor `TopKDict(k)`: empty dict, empty `_sorted_keys`. -/
def TopKDict.empty (k : Nat) : TopKDict := ⟨k, []⟩

/-- Method `TopKDict.__setitem__` (lines 115-135).  `none` models the
`IndexError` raised by `self._sorted_keys[-1]` when the list is empty
(only reachable with `k = 0`).  The final branch models the early
`return` that skips the re-sort. -/
def TopKDict.setItem (d : TopKDict) (key value : Nat) : Option TopKDict :=
  match alookup d.entries key with
  | some cur =>
    -- if already there, only update if new value is greater.
    if cur < value then
      some { d with entries := resort (aset d.entries key value) }
    else
      some { d with entries := resort d.entries }
  | none =>
    -- always add if length is less than k
    if d.entries.length < d.k then
      some { d with entries := resort (aset d.entries key value) }
    else
      -- otherwise, only add if value is greater than smallest existing.
      match d.entries.getLast? with
      | none => none
      | some last =>
        if last.2 < value then
          some { d with entries := resort (d.entries.dropLast ++ [(key, value)]) }
        else
          some d

/-- Method `TopKDict.update` (lines 137-139): offer each pair in order. -/
def TopKDict.update (d : TopKDict) : List (Nat × Nat) → Option TopKDict
  | [] => some d
  | (key, value) :: rest =>
    match d.setItem key value with
    | none => none
    | some d' => d'.update rest


/-- Sortedness maintained by `__setitem__`: entries descending by value. -/
def SortedDesc (l : List (Nat × Nat)) : Prop := l.Pairwise valueGe

theorem resort_perm (l : List (Nat × Nat)) : List.Perm (resort l) l :=
  List.perm_insertionSort valueGe l

theorem sortedDesc_resort (l : List (Nat × Nat)) : SortedDesc (resort l) :=
  List.sorted_insertionSort valueGe l

theorem resort_eq_self {l : List (Nat × Nat)} (h : SortedDesc l) : resort l = l :=
  List.Sorted.insertionSort_eq h

theorem akeys_perm {κ α : Type} {l l' : List (κ × α)} (h : List.Perm l l') :
    List.Perm (akeys l) (akeys l') := h.map Prod.fst

theorem alookup_perm {κ α : Type} [DecidableEq κ] {l l' : List (κ × α)}
    (hnd : (akeys l).Nodup) (hp : List.Perm l l') (k : κ) :
    alookup l k = alookup l' k := by
  have hnd' : (akeys l').Nodup := (akeys_perm hp).nodup_iff.mp hnd
  cases h : alookup l k with
  | none =>
    rw [alookup_eq_none_iff] at h
    rw [eq_comm, alookup_eq_none_iff]
    intro hc
    exact h ((akeys_perm hp).mem_iff.mpr hc)
  | some v =>
    rw [eq_comm]
    exact mem_alookup hnd' (hp.mem_iff.mp (alookup_mem h))

theorem mem_aset {κ α : Type} [DecidableEq κ] {l : List (κ × α)} {k : κ} {v : α} {e : κ × α}
    (h : e ∈ aset l k v) : e = (k, v) ∨ e ∈ l := by
  induction l with
  | nil => simpa [aset] using h
  | cons e' rest ih =>
    by_cases he : e'.1 = k
    · rw [aset, if_pos he] at h
      rcases List.mem_cons.mp h with h1 | h1
      · exact Or.inl h1
      · exact Or.inr (List.mem_cons_of_mem _ h1)
    · rw [aset, if_neg he] at h
      rcases List.mem_cons.mp h with h1 | h1
      · exact Or.inr (h1 ▸ List.mem_cons_self _ _)
      · rcases ih h1 with h2 | h2
        · exact Or.inl h2
        · exact Or.inr (List.mem_cons_of_mem _ h2)

theorem alookup_append_left {κ α : Type} [DecidableEq κ] {l l' : List (κ × α)} {k : κ} {v : α}
    (h : alookup l k = some v) : alookup (l ++ l') k = some v := by
  induction l with
  | nil => simp [alookup] at h
  | cons e rest ih =>
    by_cases he : e.1 = k
    · rw [alookup, if_pos he] at h
      rw [List.cons_append, alookup, if_pos he]
      exact h
    · rw [alookup, if_neg he] at h
      rw [List.cons_append, alookup, if_neg he]
      exact ih h

theorem alookup_append_right {κ α : Type} [DecidableEq κ] {l l' : List (κ × α)} {k : κ}
    (h : alookup l k = none) : alookup (l ++ l') k = alookup l' k := by
  induction l with
  | nil => rfl
  | cons e rest ih =>
    by_cases he : e.1 = k
    · rw [alookup, if_pos he] at h
      exact absurd h (by simp)
    · rw [alookup, if_neg he] at h
      rw [List.cons_append, alookup, if_neg he]
      exact ih h

theorem alookup_append_none_iff {κ α : Type} [DecidableEq κ] {l l' : List (κ × α)} {k : κ} :
    alookup (l ++ l') k = none ↔ alookup l k = none ∧ alookup l' k = none := by
  simp [alookup_eq_none_iff, akeys_append, List.mem_append, not_or]

/-- Values never below the last entry of a descending-sorted list. -/
theorem sortedDesc_getLast_le {l : List (Nat × Nat)} {last : Nat × Nat}
    (hs : SortedDesc l) (hl : l.getLast? = some last) :
    ∀ e ∈ l, last.2 ≤ e.2 := by
  induction l with
  | nil => simp at hl
  | cons a rest ih =>
    cases rest with
    | nil =>
      simp at hl
      intro e he
      simp at he
      rw [he, ← hl]
    | cons b bs =>
      rw [List.getLast?_cons_cons] at hl
      rw [SortedDesc, List.pairwise_cons] at hs
      have hlast_mem : last ∈ b :: bs := by
        have hne : (b :: bs) ≠ ([] : List (Nat × Nat)) := by simp
        rw [List.getLast?_eq_getLast _ hne] at hl
        rw [← Option.some.inj hl]
        exact List.getLast_mem hne
      intro e he
      rcases List.mem_cons.mp he with h1 | h1
      · rw [h1]
        exact hs.1 last hlast_mem
      · exact ih hs.2 hl e h1

theorem setItem_update_eq {d : TopKDict} {key value cur : Nat}
    (h : alookup d.entries key = some cur) (hlt : cur < value) :
    d.setItem key value = some { d with entries := resort (aset d.entries key value) } := by
  unfold TopKDict.setItem
  rw [h]
  simp [hlt]

theorem setItem_noop_eq {d : TopKDict} {key value cur : Nat}
    (h : alookup d.entries key = some cur) (hlt : ¬ cur < value) :
    d.setItem key value = some { d with entries := resort d.entries } := by
  unfold TopKDict.setItem
  rw [h]
  simp [hlt]

theorem setItem_insert_eq {d : TopKDict} {key value : Nat}
    (h : alookup d.entries key = none) (hlt : d.entries.length < d.k) :
    d.setItem key value = some { d with entries := resort (aset d.entries key value) } := by
  unfold TopKDict.setItem
  rw [h]
  simp [hlt]

theorem setItem_evict_eq {d : TopKDict} {key value : Nat} {last : Nat × Nat}
    (h : alookup d.entries key = none) (hlt : ¬ d.entries.length < d.k)
    (hlast : d.entries.getLast? = some last) (hvl : last.2 < value) :
    d.setItem key value =
      some { d with entries := resort (d.entries.dropLast ++ [(key, value)]) } := by
  unfold TopKDict.setItem
  rw [h]
  simp only [if_neg hlt]
  rw [hlast]
  simp [hvl]

theorem setItem_reject_eq {d : TopKDict} {key value : Nat} {last : Nat × Nat}
    (h : alookup d.entries key = none) (hlt : ¬ d.entries.length < d.k)
    (hlast : d.entries.getLast? = some last) (hvl : ¬ last.2 < value) :
    d.setItem key value = some d := by
  unfold TopKDict.setItem
  rw [h]
  simp only [if_neg hlt]
  rw [hlast]
  simp [hvl]

/-- Inductive invariant for a `TopKDict` of capacity `k` after the offers
in `ops` have been applied: the entry list is sorted, keys are unique,
size is bounded, and every offered value is dominated: if its key left
the dict (or was never admitted) the dict is full and everything stored
is at least as large; if its key is present the stored value is at least
as large. -/
def TopKInv (k : Nat) (ops : List (Nat × Nat)) (d : TopKDict) : Prop :=
  d.k = k ∧ SortedDesc d.entries ∧ (akeys d.entries).Nodup ∧ d.entries.length ≤ k ∧
  ∀ key v, (key, v) ∈ ops →
    (alookup d.entries key = none → d.entries.length = k ∧ ∀ e ∈ d.entries, v ≤ e.2) ∧
    (∀ cur, alookup d.entries key = some cur → v ≤ cur)

theorem topKInv_empty (k : Nat) : TopKInv k [] (TopKDict.empty k) := by
  refine ⟨rfl, List.Pairwise.nil, List.nodup_nil, Nat.zero_le k, ?_⟩
  intro key v hmem
  simp at hmem

theorem setItem_inv {k : Nat} {ops : List (Nat × Nat)} {d d' : TopKDict} {key value : Nat}
    (hinv : TopKInv k ops d) (hset : d.setItem key value = some d') :
    TopKInv k (ops ++ [(key, value)]) d' := by
  obtain ⟨hk, hsort, hnd, hlen, hops⟩ := hinv
  cases hcur : alookup d.entries key with
  | some cur =>
    by_cases hlt : cur < value
    · -- in-place update to the strictly larger value
      rw [setItem_update_eq hcur hlt] at hset
      obtain rfl := Option.some.inj hset
      have hkey_mem : key ∈ akeys d.entries := by
        by_contra hc
        rw [← alookup_eq_none_iff] at hc
        simp [hc] at hcur
      have hak : akeys (aset d.entries key value) = akeys d.entries :=
        akeys_aset_of_mem _ _ _ hkey_mem
      have hndu : (akeys (aset d.entries key value)).Nodup := by rw [hak]; exact hnd
      have hperm := resort_perm (aset d.entries key value)
      have hnds := (akeys_perm hperm).nodup_iff.mpr hndu
      have hlook := fun k' => alookup_perm hnds hperm k'
      have hlenu : (aset d.entries key value).length = d.entries.length := by
        have h1 := congrArg List.length hak
        simpa [akeys] using h1
      refine ⟨hk, sortedDesc_resort _, hnds, ?_, ?_⟩
      · rw [hperm.length_eq, hlenu]
        exact hlen
      · intro key₀ v₀ hmem
        rcases List.mem_append.mp hmem with hmem | hmem
        · refine ⟨?_, ?_⟩
          · intro hnone
            rw [hlook] at hnone
            have hkne : key₀ ≠ key := by
              intro he
              rw [he, alookup_aset_self] at hnone
              exact Option.noConfusion hnone
            rw [alookup_aset_ne _ _ _ _ hkne] at hnone
            obtain ⟨hlend, hall⟩ := (hops key₀ v₀ hmem).1 hnone
            refine ⟨by rw [hperm.length_eq, hlenu]; exact hlend, ?_⟩
            intro e he
            have he' := hperm.mem_iff.mp he
            rcases mem_aset he' with rfl | he''
            · exact Nat.le_trans (hall _ (alookup_mem hcur)) (Nat.le_of_lt hlt)
            · exact hall e he''
          · intro c hc
            rw [hlook] at hc
            by_cases hkne : key₀ = key
            · rw [hkne, alookup_aset_self] at hc
              obtain rfl := Option.some.inj hc
              exact Nat.le_trans ((hops key₀ v₀ hmem).2 cur (by rw [hkne]; exact hcur))
                (Nat.le_of_lt hlt)
            · rw [alookup_aset_ne _ _ _ _ hkne] at hc
              exact (hops key₀ v₀ hmem).2 c hc
        · simp at hmem
          obtain ⟨rfl, rfl⟩ := hmem
          refine ⟨?_, ?_⟩
          · intro hnone
            rw [hlook, alookup_aset_self] at hnone
            exact Option.noConfusion hnone
          · intro c hc
            rw [hlook, alookup_aset_self] at hc
            rw [← Option.some.inj hc]
    · -- equal or smaller value on an existing key: no-op (plus a re-sort)
      rw [setItem_noop_eq hcur hlt] at hset
      obtain rfl := Option.some.inj hset
      have hde : ({ d with entries := resort d.entries } : TopKDict) = d := by
        rw [resort_eq_self hsort]
      rw [hde]
      refine ⟨hk, hsort, hnd, hlen, ?_⟩
      intro key₀ v₀ hmem
      rcases List.mem_append.mp hmem with hmem | hmem
      · exact hops key₀ v₀ hmem
      · simp at hmem
        obtain ⟨rfl, rfl⟩ := hmem
        refine ⟨?_, ?_⟩
        · intro hnone
          rw [hcur] at hnone
          exact Option.noConfusion hnone
        · intro c hc
          rw [hcur] at hc
          obtain rfl := Option.some.inj hc
          exact Nat.le_of_not_lt hlt
  | none =>
    by_cases hlt : d.entries.length < d.k
    · -- below capacity: unconditional insert
      rw [setItem_insert_eq hcur hlt] at hset
      obtain rfl := Option.some.inj hset
      have hknot : key ∉ akeys d.entries := (alookup_eq_none_iff _ _).mp hcur
      have hu : aset d.entries key value = d.entries ++ [(key, value)] :=
        aset_eq_append _ _ _ hknot
      have hndu : (akeys (aset d.entries key value)).Nodup := by
        rw [hu, akeys_append]
        refine List.Nodup.append hnd (by simp [akeys]) ?_
        intro a ha hb
        simp [akeys] at hb
        rw [hb] at ha
        exact hknot ha
      have hperm := resort_perm (aset d.entries key value)
      have hnds := (akeys_perm hperm).nodup_iff.mpr hndu
      have hlook := fun k' => alookup_perm hnds hperm k'
      rw [hk] at hlt
      refine ⟨hk, sortedDesc_resort _, hnds, ?_, ?_⟩
      · rw [hperm.length_eq, hu]
        simp only [List.length_append, List.length_cons, List.length_nil]
        omega
      · intro key₀ v₀ hmem
        rcases List.mem_append.mp hmem with hmem | hmem
        · refine ⟨?_, ?_⟩
          · intro hnone
            rw [hlook] at hnone
            have hkne : key₀ ≠ key := by
              intro he
              rw [he, alookup_aset_self] at hnone
              exact Option.noConfusion hnone
            rw [alookup_aset_ne _ _ _ _ hkne] at hnone
            obtain ⟨hlend, _⟩ := (hops key₀ v₀ hmem).1 hnone
            exact absurd hlend (Nat.ne_of_lt hlt)
          · intro c hc
            rw [hlook] at hc
            by_cases hkne : key₀ = key
            · have hn : alookup d.entries key₀ = none := by rw [hkne]; exact hcur
              obtain ⟨hlend, _⟩ := (hops key₀ v₀ hmem).1 hn
              exact absurd hlend (Nat.ne_of_lt hlt)
            · rw [alookup_aset_ne _ _ _ _ hkne] at hc
              exact (hops key₀ v₀ hmem).2 c hc
        · simp at hmem
          obtain ⟨rfl, rfl⟩ := hmem
          refine ⟨?_, ?_⟩
          · intro hnone
            rw [hlook, alookup_aset_self] at hnone
            exact Option.noConfusion hnone
          · intro c hc
            rw [hlook, alookup_aset_self] at hc
            rw [← Option.some.inj hc]
    · -- at capacity
      cases hlast : d.entries.getLast? with
      | none =>
        rw [TopKDict.setItem, hcur] at hset
        simp only [if_neg hlt] at hset
        rw [hlast] at hset
        exact Option.noConfusion hset
      | some last =>
        have hne : d.entries ≠ [] := by
          intro h0
          rw [h0] at hlast
          simp at hlast
        have hgl : d.entries.getLast hne = last := by
          have h1 := List.getLast?_eq_getLast d.entries hne
          rw [hlast] at h1
          exact (Option.some.inj h1).symm
        have hsplit : d.entries.dropLast ++ [last] = d.entries := by
          rw [← hgl]
          exact List.dropLast_append_getLast hne
        have hlen_eq : d.entries.length = k :=
          Nat.le_antisymm hlen (by rw [← hk]; exact Nat.le_of_not_lt hlt)
        have hmin : ∀ e ∈ d.entries, last.2 ≤ e.2 := sortedDesc_getLast_le hsort hlast
        have hlast_mem : last ∈ d.entries := by
          rw [← hgl]
          exact List.getLast_mem hne
        have hknot : key ∉ akeys d.entries := (alookup_eq_none_iff _ _).mp hcur
        by_cases hvl : last.2 < value
        · -- evict the smallest, insert the new pair
          rw [setItem_evict_eq hcur hlt hlast hvl] at hset
          obtain rfl := Option.some.inj hset
          have hdk : akeys d.entries.dropLast = (akeys d.entries).dropLast := by
            unfold akeys
            exact List.map_dropLast _ _
          have hnd_dl : (akeys d.entries.dropLast).Nodup := by
            rw [hdk]
            exact hnd.sublist (List.dropLast_sublist _)
          have hk_dl : key ∉ akeys d.entries.dropLast := by
            rw [hdk]
            intro hc
            exact hknot ((List.dropLast_sublist _).subset hc)
          have hndw : (akeys (d.entries.dropLast ++ [(key, value)])).Nodup := by
            rw [akeys_append]
            refine List.Nodup.append hnd_dl (by simp [akeys]) ?_
            intro a ha hb
            simp [akeys] at hb
            rw [hb] at ha
            exact hk_dl ha
          have hlenw : (d.entries.dropLast ++ [(key, value)]).length = k := by
            have h1 : d.entries.dropLast.length + 1 = d.entries.length := by
              conv_rhs => rw [← hsplit]
              simp
            simp only [List.length_append, List.length_cons, List.length_nil]
            omega
          have hperm := resort_perm (d.entries.dropLast ++ [(key, value)])
          have hnds := (akeys_perm hperm).nodup_iff.mpr hndw
          have hlook := fun k' => alookup_perm hnds hperm k'
          have hlookw_key : alookup (d.entries.dropLast ++ [(key, value)]) key = some value := by
            rw [alookup_append_right ((alookup_eq_none_iff _ _).mpr hk_dl)]
            simp [alookup]
          refine ⟨hk, sortedDesc_resort _, hnds, ?_, ?_⟩
          · rw [hperm.length_eq, hlenw]
          · intro key₀ v₀ hmem
            rcases List.mem_append.mp hmem with hmem | hmem
            · refine ⟨?_, ?_⟩
              · intro hnone
                rw [hlook, alookup_append_none_iff] at hnone
                obtain ⟨hn_dl, hn_kv⟩ := hnone
                refine ⟨by rw [hperm.length_eq, hlenw], ?_⟩
                intro e he
                have he' := hperm.mem_iff.mp he
                cases hdl : alookup d.entries key₀ with
                | none =>
                  obtain ⟨_, hall⟩ := (hops key₀ v₀ hmem).1 hdl
                  rcases List.mem_append.mp he' with hed | hekv
                  · exact hall e ((List.dropLast_sublist _).subset hed)
                  · simp at hekv
                    rw [hekv]
                    exact Nat.le_trans (hall last hlast_mem) (Nat.le_of_lt hvl)
                | some c =>
                  have hment : (key₀, c) ∈ d.entries.dropLast ++ [last] := by
                    rw [hsplit]
                    exact alookup_mem hdl
                  rcases List.mem_append.mp hment with hed | hel
                  · exact absurd (List.mem_map_of_mem Prod.fst hed)
                      ((alookup_eq_none_iff _ _).mp hn_dl)
                  · simp at hel
                    have hc2 : last.2 = c := by rw [← hel]
                    have hv₀ : v₀ ≤ c := (hops key₀ v₀ hmem).2 c hdl
                    rcases List.mem_append.mp he' with hed | hekv
                    · exact Nat.le_trans hv₀
                        (hc2 ▸ hmin e ((List.dropLast_sublist _).subset hed))
                    · simp at hekv
                      rw [hekv]
                      exact Nat.le_trans hv₀ (hc2 ▸ Nat.le_of_lt hvl)
              · intro c hc
                rw [hlook] at hc
                by_cases hkne : key₀ = key
                · rw [hkne, hlookw_key] at hc
                  obtain rfl := Option.some.inj hc
                  have hn : alookup d.entries key₀ = none := by rw [hkne]; exact hcur
                  obtain ⟨_, hall⟩ := (hops key₀ v₀ hmem).1 hn
                  exact Nat.le_trans (hall last hlast_mem) (Nat.le_of_lt hvl)
                · cases hdl : alookup d.entries.dropLast key₀ with
                  | some c' =>
                    rw [alookup_append_left hdl] at hc
                    obtain rfl := Option.some.inj hc
                    have h2 : alookup d.entries key₀ = some c' := by
                      rw [← hsplit]
                      exact alookup_append_left hdl
                    exact (hops key₀ v₀ hmem).2 _ h2
                  | none =>
                    rw [alookup_append_right hdl] at hc
                    simp [alookup, Ne.symm hkne] at hc
            · simp at hmem
              obtain ⟨rfl, rfl⟩ := hmem
              refine ⟨?_, ?_⟩
              · intro hnone
                rw [hlook, hlookw_key] at hnone
                exact Option.noConfusion hnone
              · intro c hc
                rw [hlook, hlookw_key] at hc
                rw [← Option.some.inj hc]
        · -- value not above the smallest: rejected, dict unchanged
          rw [setItem_reject_eq hcur hlt hlast hvl] at hset
          obtain rfl := Option.some.inj hset
          refine ⟨hk, hsort, hnd, hlen, ?_⟩
          intro key₀ v₀ hmem
          rcases List.mem_append.mp hmem with hmem | hmem
          · exact hops key₀ v₀ hmem
          · simp at hmem
            obtain ⟨rfl, rfl⟩ := hmem
            refine ⟨?_, ?_⟩
            · intro _
              exact ⟨hlen_eq, fun e he => Nat.le_trans (Nat.le_of_not_lt hvl) (hmin e he)⟩
            · intro c hc
              rw [hcur] at hc
              exact Option.noConfusion hc

theorem update_inv : ∀ (ops : List (Nat × Nat)) {k : Nat} {d d' : TopKDict}
    (hist : List (Nat × Nat)), TopKInv k hist d → d.update ops = some d' →
    TopKInv k (hist ++ ops) d'
  | [], _, d, d', hist, hinv, hup => by
    rw [TopKDict.update] at hup
    obtain rfl := Option.some.inj hup
    simpa using hinv
  | (key, value) :: rest, _, d, d', hist, hinv, hup => by
    rw [TopKDict.update] at hup
    cases hset : d.setItem key value with
    | none =>
      rw [hset] at hup
      exact Option.noConfusion hup
    | some d₁ =>
      rw [hset] at hup
      have h1 := setItem_inv hinv hset
      have h2 := update_inv rest (hist ++ [(key, value)]) h1 hup
      rwa [List.append_assoc] at h2

/-- C1: for every capacity K and every finite sequence of offers on a
`TopKDict` of capacity K (modelling repeated `d[key] = value` calls),
the final size is at most K, and every value retained at the end is at
least every value ever offered for a key not present in the final map. -/
theorem topk_bounded_and_dominating (k : Nat) (ops : List (Nat × Nat)) (d' : TopKDict)
    (h : (TopKDict.empty k).update ops = some d') :
    d'.entries.length ≤ k ∧
      ∀ key v, (key, v) ∈ ops → key ∉ akeys d'.entries → ∀ e ∈ d'.entries, v ≤ e.2 := by
  have hinv := update_inv ops [] (topKInv_empty k) h
  simp only [List.nil_append] at hinv
  obtain ⟨_, _, _, hlen, hops⟩ := hinv
  refine ⟨hlen, ?_⟩
  intro key v hmem hnot
  exact ((hops key v hmem).1 ((alookup_eq_none_iff _ _).mpr hnot)).2

theorem topk_bounded_and_dominating_witness :
    (TopKDict.empty 1).update [(5, 10), (6, 3)] = some ⟨1, [(5, 10)]⟩ ∧
      ((⟨1, [(5, 10)]⟩ : TopKDict).entries.length ≤ 1 ∧
        ∀ key v, (key, v) ∈ [(5, 10), (6, 3)] →
          key ∉ akeys (⟨1, [(5, 10)]⟩ : TopKDict).entries →
          ∀ e ∈ (⟨1, [(5, 10)]⟩ : TopKDict).entries, v ≤ e.2) :=
  ⟨by decide, topk_bounded_and_dominating 1 [(5, 10), (6, 3)] ⟨1, [(5, 10)]⟩ (by decide)⟩

/-- C5: offering a key already present replaces its stored value only
when the new value is strictly greater (the map is returned unchanged
for equal or smaller values), and the concrete capacity-2 runs from the
class docstring: offers a:1, b:2, c:3, d:4 leave exactly c:3, d:4 (keys
encoded 0,1,2,3); a later offer of c:2 keeps 3; an offer of c:5 updates
to 5. -/
theorem topk_strict_greater_overwrite :
    (∀ (d : TopKDict) (key cur value : Nat), SortedDesc d.entries →
        alookup d.entries key = some cur → value ≤ cur →
        d.setItem key value = some d) ∧
    (∀ (d : TopKDict) (key cur value : Nat), (akeys d.entries).Nodup →
        alookup d.entries key = some cur → cur < value →
        ∃ l, d.setItem key value = some { d with entries := l } ∧
          alookup l key = some value ∧
          ∀ k', k' ≠ key → alookup l k' = alookup d.entries k') ∧
    (TopKDict.update (TopKDict.empty 2) [(0, 1), (1, 2), (2, 3), (3, 4)] =
      some ⟨2, [(3, 4), (2, 3)]⟩) ∧
    TopKDict.setItem ⟨2, [(3, 4), (2, 3)]⟩ 2 2 = some ⟨2, [(3, 4), (2, 3)]⟩ ∧
    TopKDict.setItem ⟨2, [(3, 4), (2, 3)]⟩ 2 5 = some ⟨2, [(2, 5), (3, 4)]⟩ := by
  refine ⟨?_, ?_, by decide, by decide, by decide⟩
  · intro d key cur value hsort hcur hle
    rw [setItem_noop_eq hcur (Nat.not_lt.mpr hle), resort_eq_self hsort]
  · intro d key cur value hnd hcur hlt
    refine ⟨resort (aset d.entries key value), setItem_update_eq hcur hlt, ?_, ?_⟩
    · have hkey_mem : key ∈ akeys d.entries := by
        by_contra hc
        rw [← alookup_eq_none_iff] at hc
        simp [hc] at hcur
      have hndu : (akeys (aset d.entries key value)).Nodup := by
        rw [akeys_aset_of_mem _ _ _ hkey_mem]
        exact hnd
      rw [alookup_perm ((akeys_perm (resort_perm _)).nodup_iff.mpr hndu) (resort_perm _) key]
      exact alookup_aset_self _ _ _
    · intro k' hk'
      have hkey_mem : key ∈ akeys d.entries := by
        by_contra hc
        rw [← alookup_eq_none_iff] at hc
        simp [hc] at hcur
      have hndu : (akeys (aset d.entries key value)).Nodup := by
        rw [akeys_aset_of_mem _ _ _ hkey_mem]
        exact hnd
      rw [alookup_perm ((akeys_perm (resort_perm _)).nodup_iff.mpr hndu) (resort_perm _) k']
      exact alookup_aset_ne _ _ _ _ hk'

theorem topk_strict_greater_overwrite_witness :
    TopKDict.setItem ⟨2, [(3, 4), (2, 3)]⟩ 3 4 = some ⟨2, [(3, 4), (2, 3)]⟩ ∧
      ∃ l, TopKDict.setItem ⟨2, [(3, 4), (2, 3)]⟩ 3 6 =
          some { (⟨2, [(3, 4), (2, 3)]⟩ : TopKDict) with entries := l } ∧
        alookup l 3 = some 6 ∧
        ∀ k', k' ≠ 3 → alookup l k' = alookup [(3, 4), (2, 3)] k' :=
  ⟨topk_strict_greater_overwrite.1 ⟨2, [(3, 4), (2, 3)]⟩ 3 4 4
      (by unfold SortedDesc; decide) (by decide) (by decide),
    topk_strict_greater_overwrite.2.1 ⟨2, [(3, 4), (2, 3)]⟩ 3 4 6
      (by decide) (by decide) (by decide)⟩

/-! ## Hourly sliding window (`main`, lines 348-357 and 390-394)

`main` keeps `recent_timestamps`, a FIFO queue of the timestamps seen in
the trailing hour.  For each line it pops every timestamp older than
3600 seconds, assigning `top_hours[hour_start] = n` where `n` is the
queue length just before the pop, then appends the new timestamp; at
stream end it pops-and-assigns the whole remaining queue.  We record the
sequence of `(hour_start, n)` assignments made. -/

/-- The while-loop of lines 351-356: close every bucket whose start aged
out relative to `time`; returns the closed `(hour_start, count)` pairs
in pop order and the remaining queue. -/
def closeExpired (time : Nat) : List Nat → List (Nat × Nat) × List Nat
  | [] => ([], [])
  | t0 :: rest =>
    if time - t0 > 3600 then
      ((t0, rest.length + 1) :: (closeExpired time rest).1, (closeExpired time rest).2)
    else
      ([], t0 :: rest)

/-- One per-line window update: close expired buckets, then append the
new timestamp (line 357).  The first component accumulates all closed
buckets of the run. -/
def windowStep (acc : List (Nat × Nat) × List Nat) (time : Nat) :
    List (Nat × Nat) × List Nat :=
  (acc.1 ++ (closeExpired time acc.2).1, (closeExpired time acc.2).2 ++ [time])

/-- The stream-end flush of lines 390-394: pop every remaining timestamp,
closing a bucket whose count is the queue length before the pop. -/
def flushWindow : List Nat → List (Nat × Nat)
  | [] => []
  | t0 :: rest => (t0, rest.length + 1) :: flushWindow rest

/-- All buckets assigned into `top_hours` over a run of `main`'s loop on
the given timestamps, including the final flush. -/
def windowRun (ts : List Nat) : List (Nat × Nat) :=
  (ts.foldl windowStep ([], [])).1 ++ flushWindow (ts.foldl windowStep ([], [])).2

theorem closeExpired_decomp (time : Nat) (q : List Nat) :
    (closeExpired time q).1.map Prod.fst ++ (closeExpired time q).2 = q := by
  induction q with
  | nil => rfl
  | cons t0 rest ih =>
    by_cases h : time - t0 > 3600
    · simp only [closeExpired, if_pos h, List.map_cons, List.cons_append]
      rw [ih]
    · simp [closeExpired, if_neg h]

theorem closeExpired_decomp_assoc (time : Nat) (q X : List Nat) :
    (closeExpired time q).1.map Prod.fst ++ ((closeExpired time q).2 ++ X) = q ++ X := by
  rw [← List.append_assoc, closeExpired_decomp]

theorem flushWindow_map_fst (q : List Nat) : (flushWindow q).map Prod.fst = q := by
  induction q with
  | nil => rfl
  | cons t0 rest ih => simp [flushWindow, ih]

theorem windowFold_decomp (ts : List Nat) : ∀ (c : List (Nat × Nat)) (q : List Nat),
    (ts.foldl windowStep (c, q)).1.map Prod.fst ++ (ts.foldl windowStep (c, q)).2 =
      c.map Prod.fst ++ q ++ ts := by
  induction ts with
  | nil =>
    intro c q
    simp
  | cons t rest ih =>
    intro c q
    rw [List.foldl_cons]
    rw [show windowStep (c, q) t =
      (c ++ (closeExpired t q).1, (closeExpired t q).2 ++ [t]) from rfl]
    rw [ih]
    simp only [List.map_append, List.append_assoc]
    rw [closeExpired_decomp_assoc]
    simp

/-- C2 counterexample: feeding the strictly increasing timestamps
0, 10, 4000 closes buckets (0, 2), (10, 1) and the flushed (4000, 1),
whose counts sum to 4, not 3: the sum of closed-bucket counts does not
equal the number of timestamps fed, because consecutive buckets count
overlapping trailing-hour windows. -/
theorem window_counts_sum_counterexample :
    List.Chain' (· < ·) [0, 10, 4000] ∧
      windowRun [0, 10, 4000] = [(0, 2), (10, 1), (4000, 1)] ∧
      ((windowRun [0, 10, 4000]).map Prod.snd).sum = 4 ∧
      ¬ ((windowRun [0, 10, 4000]).map Prod.snd).sum = [0, 10, 4000].length := by
  refine ⟨by simp [List.chain'_cons], by decide, by decide, by decide⟩

/-- C2 (amended): for every monotonically increasing timestamp sequence,
each timestamp fed becomes the start of exactly one closed hour-bucket
(including those produced by the final flush), in order; hence the
NUMBER of closed buckets — not the sum of their counts — equals the
total number of timestamps fed. -/
theorem window_buckets_conserve_timestamps (ts : List Nat)
    (_hmono : List.Chain' (· < ·) ts) :
    (windowRun ts).map Prod.fst = ts ∧ (windowRun ts).length = ts.length := by
  have h1 : (windowRun ts).map Prod.fst = ts := by
    rw [windowRun, List.map_append, flushWindow_map_fst]
    simpa using windowFold_decomp ts [] []
  refine ⟨h1, ?_⟩
  have h2 := congrArg List.length h1
  simpa using h2

theorem window_buckets_conserve_timestamps_witness :
    List.Chain' (· < ·) [0, 10, 4000] ∧
      (windowRun [0, 10, 4000]).map Prod.fst = [0, 10, 4000] ∧
      (windowRun [0, 10, 4000]).length = [0, 10, 4000].length :=
  ⟨by simp [List.chain'_cons],
    (window_buckets_conserve_timestamps [0, 10, 4000] (by simp [List.chain'_cons])).1,
    (window_buckets_conserve_timestamps [0, 10, 4000] (by simp [List.chain'_cons])).2⟩

/-! ## BlockList (`process_log.py` lines 142-223) -/

structure BlockList where
  fail_limit : Nat
  fail_time : Nat
  block_time : Nat
  blocking : List (String × Nat)
  failures : List (String × List Nat)
  deriving DecidableEq, Repr

/-- Constructor `BlockList.__init__`: both ledgers start empty. -/
def BlockList.init (fail_limit fail_time block_time : Nat) : BlockList :=
  ⟨fail_limit, fail_time, block_time, [], []⟩

/-- The while-loop of lines 213-215: drop leading failure times older
than `fail_time` (the loop stops at the first recent entry). -/
def pruneFailures (time fail_time : Nat) : List Nat → List Nat
  | [] => []
  | t0 :: rest =>
    if time - t0 > fail_time then pruneFailures time fail_time rest else t0 :: rest

/-- The pruned-and-appended failure list of lines 208-218 (`[]` when the
host has no recorded failures, as created by line 209). -/
def newFailures (bl : BlockList) (host : String) (time : Nat) : List Nat :=
  pruneFailures time bl.fail_time ((alookup bl.failures host).getD []) ++ [time]

/-- Lines 199-223 of `handle`: the path for a host that is not (or no
longer) blocked.  A success clears the failure history; a failure is
recorded and, at `fail_limit`, moves the host into `blocking` and
deletes its failure history.  Every path returns `False`. -/
def BlockList.handleUnblocked (bl : BlockList) (host : String) (time : Nat)
    (succ : Bool) : Bool × BlockList :=
  if succ then
    (false, { bl with failures := aerase bl.failures host })
  else if bl.fail_limit ≤ (newFailures bl host time).length then
    (false, { bl with blocking := aset bl.blocking host time,
                      failures := aerase bl.failures host })
  else
    (false, { bl with failures := aset bl.failures host (newFailures bl host time) })

/-- Method `BlockList.handle` (lines 170-223). -/
def BlockList.handle (bl : BlockList) (host : String) (time : Nat)
    (succ : Bool) : Bool × BlockList :=
  match alookup bl.blocking host with
  | some blockedAt =>
    if time - blockedAt > bl.block_time then
      BlockList.handleUnblocked { bl with blocking := aerase bl.blocking host }
        host time succ
    else
      (true, bl)
  | none => BlockList.handleUnblocked bl host time succ

/-- Folding `handle` over a sequence of (host, time, success) events. -/
def BlockList.runHandles (bl : BlockList) : List (String × Nat × Bool) → BlockList
  | [] => bl
  | (h, t, s) :: rest => ((bl.handle h t s).2).runHandles rest

theorem handle_still_blocked {bl : BlockList} {host : String} {time b0 : Nat} {succ : Bool}
    (hb : alookup bl.blocking host = some b0) (h : ¬ time - b0 > bl.block_time) :
    bl.handle host time succ = (true, bl) := by
  unfold BlockList.handle
  rw [hb]
  simp [h]

theorem handle_expired {bl : BlockList} {host : String} {time b0 : Nat} {succ : Bool}
    (hb : alookup bl.blocking host = some b0) (h : time - b0 > bl.block_time) :
    bl.handle host time succ =
      BlockList.handleUnblocked { bl with blocking := aerase bl.blocking host }
        host time succ := by
  unfold BlockList.handle
  rw [hb]
  simp [h]

theorem handle_not_blocked {bl : BlockList} {host : String} {time : Nat} {succ : Bool}
    (hb : alookup bl.blocking host = none) :
    bl.handle host time succ = bl.handleUnblocked host time succ := by
  unfold BlockList.handle
  rw [hb]

/-- C3 counterexample: with failLimit=2, failTime=10, blockTime=60 and
failures for host b at t=0 and t=10 seconds, the block is recorded at
the triggering time t=10, and unblocking requires `t - 10 > 60`; a call
at t=69 is therefore still blocked and returns `True`, while the claim
says it returns false (unblocked). -/
theorem blocklist_t69_counterexample :
    ((BlockList.init 2 10 60).handle "b" 0 false).1 = false ∧
      ((((BlockList.init 2 10 60).handle "b" 0 false).2).handle "b" 10 false).1 = false ∧
      (((((BlockList.init 2 10 60).handle "b" 0 false).2).handle "b" 10 false).2).handle
          "b" 69 false = (true, ⟨2, 10, 60, [("b", 10)], []⟩) := by
  refine ⟨by decide, by decide, by decide⟩

/-- C3 (amended): with failLimit=2, failTime=10, blockTime=60 and
failure calls for host b at t=0 and t=10: the first call returns false,
the second (triggering) call itself returns false and records the block
at t=10, every call (success or failure) at any time t ≤ 70 — i.e.
within blockTime of the trigger — returns true, and a call at t=71
(more than blockTime after the second failure) returns false; if that
call is itself a failure it begins a fresh failure count `[71]` with the
block entry removed. -/
theorem blocklist_scenario (t : Nat) (succ : Bool) (ht : t ≤ 70) :
    ((BlockList.init 2 10 60).handle "b" 0 false).1 = false ∧
      ((((BlockList.init 2 10 60).handle "b" 0 false).2).handle "b" 10 false).2 =
        ⟨2, 10, 60, [("b", 10)], []⟩ ∧
      ((((BlockList.init 2 10 60).handle "b" 0 false).2).handle "b" 10 false).1 = false ∧
      ((⟨2, 10, 60, [("b", 10)], []⟩ : BlockList).handle "b" t succ).1 = true ∧
      (⟨2, 10, 60, [("b", 10)], []⟩ : BlockList).handle "b" 71 false =
        (false, ⟨2, 10, 60, [], [("b", [71])]⟩) := by
  refine ⟨by decide, by decide, by decide, ?_, by decide⟩
  have hb : alookup (⟨2, 10, 60, [("b", 10)], []⟩ : BlockList).blocking "b" = some 10 := by
    decide
  rw [handle_still_blocked hb (by simp; omega)]

theorem blocklist_scenario_witness :
    (69 ≤ 70 ∧
      ((⟨2, 10, 60, [("b", 10)], []⟩ : BlockList).handle "b" 69 true).1 = true) ∧
      ((BlockList.init 2 10 60).handle "b" 0 false).1 = false :=
  ⟨⟨by decide, (blocklist_scenario 69 true (by decide)).2.2.2.1⟩,
    (blocklist_scenario 69 true (by decide)).1⟩

/-- A host is present in at most one of the two internal maps of a
`BlockList` (blocking and failures). -/
def MutuallyExclusive (bl : BlockList) : Prop :=
  ∀ h : String, alookup bl.blocking h = none ∨ alookup bl.failures h = none

theorem handleUnblocked_mutex {bl : BlockList} {host : String} {time : Nat} {succ : Bool}
    (hinv : MutuallyExclusive bl) (hb : alookup bl.blocking host = none) :
    MutuallyExclusive (bl.handleUnblocked host time succ).2 := by
  unfold BlockList.handleUnblocked
  by_cases hsucc : succ
  · rw [if_pos hsucc]
    intro h
    by_cases hh : h = host
    · subst hh
      exact Or.inr (alookup_aerase_self bl.failures h)
    · rcases hinv h with h1 | h1
      · exact Or.inl h1
      · exact Or.inr ((alookup_aerase_ne bl.failures host h hh).trans h1)
  · rw [if_neg hsucc]
    by_cases hlim : bl.fail_limit ≤ (newFailures bl host time).length
    · rw [if_pos hlim]
      intro h
      by_cases hh : h = host
      · subst hh
        exact Or.inr (alookup_aerase_self bl.failures h)
      · rcases hinv h with h1 | h1
        · exact Or.inl ((alookup_aset_ne bl.blocking host h time hh).trans h1)
        · exact Or.inr ((alookup_aerase_ne bl.failures host h hh).trans h1)
    · rw [if_neg hlim]
      intro h
      by_cases hh : h = host
      · subst hh
        exact Or.inl hb
      · rcases hinv h with h1 | h1
        · exact Or.inl h1
        · exact Or.inr ((alookup_aset_ne bl.failures host h _ hh).trans h1)

/-- C7: each host is present in at most one of the two internal maps
(blocking and failures) after every sequence of `handle` calls from a
fresh `BlockList`, and every single `handle` call preserves this mutual
exclusion. -/
theorem blocklist_mutual_exclusion :
    (∀ (bl : BlockList) (host : String) (time : Nat) (succ : Bool),
        MutuallyExclusive bl → MutuallyExclusive (bl.handle host time succ).2) ∧
    ∀ (fl ft bt : Nat) (ops : List (String × Nat × Bool)),
      MutuallyExclusive ((BlockList.init fl ft bt).runHandles ops) := by
  have hstep : ∀ (bl : BlockList) (host : String) (time : Nat) (succ : Bool),
      MutuallyExclusive bl → MutuallyExclusive (bl.handle host time succ).2 := by
    intro bl host time succ hinv
    cases hb : alookup bl.blocking host with
    | some b0 =>
      by_cases hexp : time - b0 > bl.block_time
      · rw [handle_expired hb hexp]
        refine handleUnblocked_mutex ?_ (alookup_aerase_self _ _)
        intro h
        by_cases hh : h = host
        · subst hh
          exact Or.inl (alookup_aerase_self bl.blocking h)
        · rcases hinv h with h1 | h1
          · exact Or.inl ((alookup_aerase_ne bl.blocking host h hh).trans h1)
          · exact Or.inr h1
      · rw [handle_still_blocked hb hexp]
        exact hinv
    | none =>
      rw [handle_not_blocked hb]
      exact handleUnblocked_mutex hinv hb
  refine ⟨hstep, ?_⟩
  intro fl ft bt ops
  have hrun : ∀ (ops : List (String × Nat × Bool)) (bl : BlockList),
      MutuallyExclusive bl → MutuallyExclusive (bl.runHandles ops) := by
    intro ops
    induction ops with
    | nil =>
      intro bl h
      exact h
    | cons e rest ih =>
      intro bl h
      obtain ⟨eh, et, es⟩ := e
      exact ih _ (hstep bl eh et es h)
  exact hrun ops _ (fun _ => Or.inl rfl)

theorem blocklist_mutual_exclusion_witness :
    MutuallyExclusive (((BlockList.init 3 20 300).handle "a" 5 false).2) :=
  blocklist_mutual_exclusion.1 (BlockList.init 3 20 300) "a" 5 false (fun _ => Or.inl rfl)

/-! ## Sessions (`process_log.py` lines 226-304)

`_active_sessions` maps a host to the mutable pair
`[start_time, end_time]`; we model it as an association list in dict
(insertion) order, `host ↦ (start, last)`.  In-place mutations of the
pair keep the host's position, matching `aset`. -/

structure Sessions where
  inactive_limit : Nat
  active : List (String × Nat × Nat)
  clear_interval : Nat
  logs_since_cleared : Nat
  nsessions : Nat
  total_length : Nat
  max_length : Nat
  deriving DecidableEq, Repr

/-- Constructor `Sessions.__init__` (lines 235-244). -/
def Sessions.init (inactive_limit : Nat) : Sessions :=
  ⟨inactive_limit, [], 100000, 0, 0, 0, 0⟩

/-- Method `Sessions._save_session` (lines 292-297): fold one closed session
into the running totals (`if length > max: max = length` is `max`). -/
def Sessions.saveSession (s : Sessions) (dur : Nat × Nat) : Sessions :=
  { s with nsessions := s.nsessions + 1,
           total_length := s.total_length + (dur.2 - dur.1),
           max_length := max s.max_length (dur.2 - dur.1) }

/-- Method `Sessions._clear_inactive` (lines 246-256): save every session idle
for at least `inactive_limit` seconds (in dict order), then delete those
hosts from the active map. -/
def Sessions.clearInactive (s : Sessions) (time : Nat) : Sessions :=
  { (s.active.filter (fun e => decide (s.inactive_limit ≤ time - e.2.2))).foldl
      (fun acc e => acc.saveSession e.2) s with
    active := s.active.filter (fun e => !decide (s.inactive_limit ≤ time - e.2.2)) }

/-- Method `Sessions._clear_all` (lines 258-261). -/
def Sessions.clearAll (s : Sessions) : Sessions :=
  { s.active.foldl (fun acc e => acc.saveSession e.2) s with active := [] }

/-- The periodic-sweep preamble of `Sessions.log` (lines 273-278). -/
def Sessions.sweepPhase (s : Sessions) (time : Nat) : Sessions :=
  if s.clear_interval < s.logs_since_cleared + 1 then
    { s.clearInactive time with logs_since_cleared := 0 }
  else
    { s with logs_since_cleared := s.logs_since_cleared + 1 }

/-- The per-request session bookkeeping of `Sessions.log`
(lines 280-290). -/
def Sessions.coreLog (s : Sessions) (host : String) (time : Nat) : Sessions :=
  match alookup s.active host with
  | none => { s with active := aset s.active host (time, time) }
  | some dur =>
    if s.inactive_limit ≤ time - dur.2 then
      { s.saveSession dur with active := aset s.active host (time, time) }
    else
      { s with active := aset s.active host (dur.1, time) }

/-- Method `Sessions.log` (lines 263-290): optional periodic sweep, then the
session bookkeeping. -/
def Sessions.log (s : Sessions) (host : String) (time : Nat) : Sessions :=
  (s.sweepPhase time).coreLog host time

/-- Variant of `Sessions.log` with the periodic memory-optimization sweep of
lines 273-278 removed entirely (the comparison point of the spec's
"never running the sweep at all"). -/
def Sessions.logNoSweep (s : Sessions) (host : String) (time : Nat) : Sessions :=
  s.coreLog host time

/-- Method `Sessions.summary_statistics` (lines 299-304): close every remaining
session, then return `(count, total/count, max)`.  With zero sessions
the bare division `self._total_length / self._nsessions` raises
`ZeroDivisionError`, modelled as `none`; the mutated state (after
`_clear_all`) is returned alongside. -/
def Sessions.summary_statistics (s : Sessions) : Option (Nat × Rat × Nat) × Sessions :=
  (if s.clearAll.nsessions = 0 then none
   else some (s.clearAll.nsessions,
     (s.clearAll.total_length : Rat) / (s.clearAll.nsessions : Rat),
     s.clearAll.max_length),
   s.clearAll)

theorem clearAll_of_active_nil (s : Sessions) (h : s.active = []) : s.clearAll = s := by
  unfold Sessions.clearAll
  rw [h]
  simp only [List.foldl_nil]
  cases s
  simp_all

/-- C4 counterexample: finalizing with zero observed sessions is not
guarded anywhere: `summary_statistics` performs the bare division
`self._total_length / self._nsessions` and the `ZeroDivisionError`
propagates (modelled `none`); `main` (lines 418-423) does not guard or
report the empty case either, and no value — in particular not a
silent 0 — is produced. -/
theorem zero_sessions_unguarded_counterexample :
    ((Sessions.init 1800).summary_statistics).1 = none := by decide

/-- C4 (amended): whenever finalization reaches the average with zero
recorded sessions, the unguarded division by zero fails (the
`ZeroDivisionError` propagates, modelled `none`) instead of being
guarded and reported distinctly or silently returning zero. -/
theorem zero_sessions_division_by_zero (s : Sessions)
    (h : s.clearAll.nsessions = 0) :
    (s.summary_statistics).1 = none := by
  unfold Sessions.summary_statistics
  simp [h]

theorem zero_sessions_division_by_zero_witness :
    (Sessions.init 1800).clearAll.nsessions = 0 ∧
      ((Sessions.init 1800).summary_statistics).1 = none :=
  ⟨rfl, zero_sessions_division_by_zero (Sessions.init 1800) rfl⟩

/-- C8: calling `summary_statistics` twice in succession does not
double-count: the second call performs no additional updates to the
running totals (session count, total length, maximum length unchanged)
and returns the same result — the same triple, or the same zero-session
failure — as the first call. -/
theorem summary_statistics_idempotent (s : Sessions) :
    ((s.summary_statistics).2.summary_statistics).1 = (s.summary_statistics).1 ∧
      ((s.summary_statistics).2.summary_statistics).2.nsessions =
        (s.summary_statistics).2.nsessions ∧
      ((s.summary_statistics).2.summary_statistics).2.total_length =
        (s.summary_statistics).2.total_length ∧
      ((s.summary_statistics).2.summary_statistics).2.max_length =
        (s.summary_statistics).2.max_length := by
  have h2 : (s.clearAll).clearAll = s.clearAll := clearAll_of_active_nil _ rfl
  unfold Sessions.summary_statistics
  rw [h2]
  exact ⟨rfl, rfl, rfl, rfl⟩

/-! ### Infrastructure for the sweep-equivalence proof (C6) -/

/-- Duration of a closed session entry, `(last − start)` seconds. -/
def durOf (e : String × Nat × Nat) : Nat := e.2.2 - e.2.1

/-- Maximum of a list of durations (0 when empty, like `_max_length`). -/
def maxList (l : List Nat) : Nat := l.foldr max 0

theorem maxList_cons (x : Nat) (xs : List Nat) : maxList (x :: xs) = max x (maxList xs) := rfl

theorem maxList_append (l l' : List Nat) :
    maxList (l ++ l') = max (maxList l) (maxList l') := by
  induction l with
  | nil => simp [maxList]
  | cons x xs ih =>
    simp only [List.cons_append, maxList_cons, ih]
    rw [Nat.max_assoc]

theorem maxList_perm {l l' : List Nat} (h : List.Perm l l') : maxList l = maxList l' := by
  induction h with
  | nil => rfl
  | cons x _ ih => rw [maxList_cons, maxList_cons, ih]
  | swap x y t =>
    rw [maxList_cons, maxList_cons, maxList_cons, maxList_cons,
      ← Nat.max_assoc, ← Nat.max_assoc, Nat.max_comm y x]
  | trans _ _ ih1 ih2 => exact ih1.trans ih2

theorem saveFold_nsessions (l : List (String × Nat × Nat)) (s : Sessions) :
    (l.foldl (fun acc e => acc.saveSession e.2) s).nsessions = s.nsessions + l.length := by
  induction l generalizing s with
  | nil => simp
  | cons e rest ih =>
    rw [List.foldl_cons, ih]
    simp [Sessions.saveSession]
    omega

theorem saveFold_total (l : List (String × Nat × Nat)) (s : Sessions) :
    (l.foldl (fun acc e => acc.saveSession e.2) s).total_length =
      s.total_length + (l.map durOf).sum := by
  induction l generalizing s with
  | nil => simp
  | cons e rest ih =>
    rw [List.foldl_cons, ih]
    simp [Sessions.saveSession, durOf]
    omega

theorem saveFold_max (l : List (String × Nat × Nat)) (s : Sessions) :
    (l.foldl (fun acc e => acc.saveSession e.2) s).max_length =
      max s.max_length (maxList (l.map durOf)) := by
  induction l generalizing s with
  | nil => simp [maxList]
  | cons e rest ih =>
    rw [List.foldl_cons, ih]
    simp only [List.map_cons, maxList_cons, Sessions.saveSession]
    rw [Nat.max_assoc]
    rfl

theorem saveFold_active (l : List (String × Nat × Nat)) (s : Sessions) :
    (l.foldl (fun acc e => acc.saveSession e.2) s).active = s.active := by
  induction l generalizing s with
  | nil => rfl
  | cons e rest ih => rw [List.foldl_cons, ih]; rfl

theorem saveFold_limit (l : List (String × Nat × Nat)) (s : Sessions) :
    (l.foldl (fun acc e => acc.saveSession e.2) s).inactive_limit = s.inactive_limit := by
  induction l generalizing s with
  | nil => rfl
  | cons e rest ih => rw [List.foldl_cons, ih]; rfl

theorem aerase_of_not_mem {κ α : Type} [DecidableEq κ] {l : List (κ × α)} {k : κ}
    (h : k ∉ akeys l) : aerase l k = l := by
  induction l with
  | nil => rfl
  | cons e rest ih =>
    rw [akeys_cons, List.mem_cons, not_or] at h
    have he : e.1 ≠ k := fun hh => h.1 hh.symm
    have h1 : aerase (e :: rest) k = e :: aerase rest k := by
      simp [aerase, List.filter_cons, he]
    rw [h1, ih h.2]

theorem aerase_append {κ α : Type} [DecidableEq κ] (l l' : List (κ × α)) (k : κ) :
    aerase (l ++ l') k = aerase l k ++ aerase l' k := by simp [aerase]

theorem perm_aerase {κ α : Type} [DecidableEq κ] {l l' : List (κ × α)} (k : κ)
    (h : List.Perm l l') : List.Perm (aerase l k) (aerase l' k) := h.filter _

theorem perm_aset_cons {κ α : Type} [DecidableEq κ] {l : List (κ × α)} {k : κ} (v : α)
    (hnd : (akeys l).Nodup) (hmem : k ∈ akeys l) :
    List.Perm (aset l k v) ((k, v) :: aerase l k) := by
  induction l with
  | nil => simp [akeys] at hmem
  | cons e rest ih =>
    rw [akeys_cons, List.nodup_cons] at hnd
    by_cases he : e.1 = k
    · have hrest : k ∉ akeys rest := he ▸ hnd.1
      rw [aset, if_pos he]
      have h1 : aerase (e :: rest) k = rest := by
        simp only [aerase, List.filter_cons, he]
        simpa [aerase] using aerase_of_not_mem hrest
      rw [h1]
    · rw [akeys_cons, List.mem_cons] at hmem
      rcases hmem with hmem | hmem
      · exact absurd hmem.symm he
      · rw [aset, if_neg he]
        have h1 : aerase (e :: rest) k = e :: aerase rest k := by
          simp [aerase, List.filter_cons, he]
        rw [h1]
        exact (List.Perm.cons e (ih hnd.2 hmem)).trans (List.Perm.swap _ _ _)

theorem perm_cons_aerase {κ α : Type} [DecidableEq κ] {l : List (κ × α)} {k : κ} {v : α}
    (hnd : (akeys l).Nodup) (hmem : (k, v) ∈ l) :
    List.Perm l ((k, v) :: aerase l k) := by
  induction l with
  | nil => simp at hmem
  | cons e rest ih =>
    rw [akeys_cons, List.nodup_cons] at hnd
    by_cases he : e.1 = k
    · have hrest : k ∉ akeys rest := he ▸ hnd.1
      have hek : e = (k, v) := by
        rcases List.mem_cons.mp hmem with h1 | h1
        · exact h1.symm
        · exact absurd (List.mem_map_of_mem Prod.fst h1) hrest
      have h1 : aerase (e :: rest) k = rest := by
        simp only [aerase, List.filter_cons, he]
        simpa [aerase] using aerase_of_not_mem hrest
      rw [h1, hek]
    · have hmem' : (k, v) ∈ rest := by
        rcases List.mem_cons.mp hmem with h1 | h1
        · exact absurd (congrArg Prod.fst h1).symm he
        · exact h1
      have h1 : aerase (e :: rest) k = e :: aerase rest k := by
        simp [aerase, List.filter_cons, he]
      rw [h1]
      exact (List.Perm.cons e (ih hnd.2 hmem')).trans (List.Perm.swap _ _ _)

/-- Helper permutation: appending an element after a concatenation may
move it before the second part. -/
theorem perm_snoc_append {α : Type} (A S : List α) (x : α) :
    List.Perm ((A ++ S) ++ [x]) ((A ++ [x]) ++ S) := by
  rw [List.append_assoc, List.append_assoc]
  exact List.Perm.append_left A List.perm_append_comm

/-- Simulation relation between a `Sessions` run with the periodic sweep
(`sA`) and the identical run without it (`sB`), at a time `t` no earlier
than every processed event: the no-sweep state holds the same active
sessions plus the already-swept ones (`swept`), each swept entry idle
long enough that any future touch would close it identically, and the
sweep run's totals are ahead by exactly the swept sessions. -/
def SweepRel (t : Nat) (sA sB : Sessions) : Prop :=
  sA.inactive_limit = sB.inactive_limit ∧
  (akeys sB.active).Nodup ∧
  (∀ e ∈ sB.active, e.2.2 ≤ t) ∧
  ∃ swept : List (String × Nat × Nat),
    List.Perm sB.active (sA.active ++ swept) ∧
    (∀ e ∈ swept, e.2.2 + sB.inactive_limit ≤ t) ∧
    sA.nsessions = sB.nsessions + swept.length ∧
    sA.total_length = sB.total_length + (swept.map durOf).sum ∧
    sA.max_length = max sB.max_length (maxList (swept.map durOf))

theorem sweepRel_mono {t t' : Nat} {sA sB : Sessions} (h : SweepRel t sA sB) (ht : t ≤ t') :
    SweepRel t' sA sB := by
  obtain ⟨hlim, hnd, hbound, swept, hperm, hsw, hn, htot, hmax⟩ := h
  exact ⟨hlim, hnd, fun e he => Nat.le_trans (hbound e he) ht, swept, hperm,
    fun e he => Nat.le_trans (hsw e he) ht, hn, htot, hmax⟩

theorem clearInactive_rel {t : Nat} {sA sB : Sessions} (h : SweepRel t sA sB) :
    SweepRel t (sA.clearInactive t) sB := by
  obtain ⟨hlim, hnd, hbound, swept, hperm, hsw, hn, htot, hmax⟩ := h
  have hnses : (sA.clearInactive t).nsessions =
      sA.nsessions +
        (sA.active.filter (fun e => decide (sA.inactive_limit ≤ t - e.2.2))).length :=
    saveFold_nsessions _ _
  have htotal : (sA.clearInactive t).total_length =
      sA.total_length +
        ((sA.active.filter (fun e => decide (sA.inactive_limit ≤ t - e.2.2))).map durOf).sum :=
    saveFold_total _ _
  have hmaxl : (sA.clearInactive t).max_length =
      max sA.max_length
        (maxList ((sA.active.filter
          (fun e => decide (sA.inactive_limit ≤ t - e.2.2))).map durOf)) :=
    saveFold_max _ _
  have hlimf : (sA.clearInactive t).inactive_limit = sA.inactive_limit := saveFold_limit _ _
  have hact : (sA.clearInactive t).active =
      sA.active.filter (fun e => !decide (sA.inactive_limit ≤ t - e.2.2)) := rfl
  refine ⟨by rw [hlimf]; exact hlim, hnd, hbound,
    swept ++ sA.active.filter (fun e => decide (sA.inactive_limit ≤ t - e.2.2)),
    ?_, ?_, ?_, ?_, ?_⟩
  · rw [hact]
    have hsplit := List.filter_append_perm
      (fun e => decide (sA.inactive_limit ≤ t - e.2.2)) sA.active
    refine hperm.trans ?_
    refine (hsplit.symm.append_right swept).trans ?_
    refine ((List.perm_append_comm.append_right swept).trans ?_)
    rw [List.append_assoc]
    exact List.Perm.append_left _ List.perm_append_comm
  · intro e he
    rcases List.mem_append.mp he with h1 | h1
    · exact hsw e h1
    · have h2 := List.mem_filter.mp h1
      have h3 : e ∈ sB.active := hperm.mem_iff.mpr (List.mem_append_left _ h2.1)
      have h4 := hbound e h3
      have h5 : sA.inactive_limit ≤ t - e.2.2 := by simpa using h2.2
      rw [← hlim]
      omega
  · rw [hnses, hn, List.length_append]
    omega
  · rw [htotal, htot, List.map_append, List.sum_append]
    omega
  · rw [hmaxl, hmax, List.map_append, maxList_append, Nat.max_assoc]

theorem sweepPhase_rel {t : Nat} {sA sB : Sessions} (h : SweepRel t sA sB) :
    SweepRel t (sA.sweepPhase t) sB := by
  unfold Sessions.sweepPhase
  by_cases hc : sA.clear_interval < sA.logs_since_cleared + 1
  · rw [if_pos hc]
    obtain ⟨hlim, hnd, hbound, swept, hperm, hsw, hn, htot, hmax⟩ := clearInactive_rel h
    exact ⟨hlim, hnd, hbound, swept, hperm, hsw, hn, htot, hmax⟩
  · rw [if_neg hc]
    obtain ⟨hlim, hnd, hbound, swept, hperm, hsw, hn, htot, hmax⟩ := h
    exact ⟨hlim, hnd, hbound, swept, hperm, hsw, hn, htot, hmax⟩

theorem perm_aset_sides {κ α : Type} [DecidableEq κ] {lB lA S : List (κ × α)} {k : κ} (v : α)
    (hndB : (akeys lB).Nodup) (hperm : List.Perm lB (lA ++ S)) (hinA : k ∈ akeys lA) :
    List.Perm (aset lB k v) (aset lA k v ++ S) := by
  have hndAS : (akeys (lA ++ S)).Nodup := (akeys_perm hperm).nodup_iff.mp hndB
  rw [akeys_append] at hndAS
  have hndA : (akeys lA).Nodup := hndAS.of_append_left
  have hnotS : k ∉ akeys S := fun hc => (List.disjoint_of_nodup_append hndAS) hinA hc
  have hinB : k ∈ akeys lB := (akeys_perm hperm).mem_iff.mpr
    (by rw [akeys_append]; exact List.mem_append_left _ hinA)
  have p1 := perm_aset_cons v hndB hinB
  have p2 : List.Perm (aerase lB k) (aerase lA k ++ S) := by
    have p := perm_aerase k hperm
    rw [aerase_append, aerase_of_not_mem hnotS] at p
    exact p
  have p3 := perm_aset_cons v hndA hinA
  refine p1.trans ((List.Perm.cons _ p2).trans ?_)
  have h4 : ((k, v) :: aerase lA k) ++ S = (k, v) :: (aerase lA k ++ S) := rfl
  rw [← h4]
  exact (p3.append_right S).symm

theorem perm_aset_swept {κ α : Type} [DecidableEq κ] {lB lA S : List (κ × α)} {k : κ} (v : α)
    (hndB : (akeys lB).Nodup) (hperm : List.Perm lB (lA ++ S))
    (hinB : k ∈ akeys lB) (hnotA : k ∉ akeys lA) :
    List.Perm (aset lB k v) ((lA ++ [(k, v)]) ++ aerase S k) := by
  have p1 := perm_aset_cons v hndB hinB
  have p2 : List.Perm (aerase lB k) (lA ++ aerase S k) := by
    have p := perm_aerase k hperm
    rw [aerase_append, aerase_of_not_mem hnotA] at p
    exact p
  refine p1.trans ((List.Perm.cons _ p2).trans ?_)
  have h4 : (k, v) :: (lA ++ aerase S k) = ([(k, v)] ++ lA) ++ aerase S k := by simp
  rw [h4]
  exact List.Perm.append_right _ List.perm_append_comm

theorem coreLog_new_eq {s : Sessions} {host : String} {t : Nat}
    (h : alookup s.active host = none) :
    s.coreLog host t = { s with active := aset s.active host (t, t) } := by
  unfold Sessions.coreLog
  rw [h]

theorem coreLog_close_eq {s : Sessions} {host : String} {t : Nat} {dur : Nat × Nat}
    (h : alookup s.active host = some dur) (hidle : s.inactive_limit ≤ t - dur.2) :
    s.coreLog host t =
      { s.saveSession dur with active := aset s.active host (t, t) } := by
  unfold Sessions.coreLog
  rw [h]
  exact if_pos hidle

theorem coreLog_extend_eq {s : Sessions} {host : String} {t : Nat} {dur : Nat × Nat}
    (h : alookup s.active host = some dur) (hidle : ¬ s.inactive_limit ≤ t - dur.2) :
    s.coreLog host t = { s with active := aset s.active host (dur.1, t) } := by
  unfold Sessions.coreLog
  rw [h]
  exact if_neg hidle

theorem coreLog_rel {t : Nat} {sA sB : Sessions} (h : SweepRel t sA sB) (host : String) :
    SweepRel t (sA.coreLog host t) (sB.coreLog host t) := by
  obtain ⟨hlim, hnd, hbound, swept, hperm, hsw, hn, htot, hmax⟩ := h
  have hndAS : (akeys (sA.active ++ swept)).Nodup := (akeys_perm hperm).nodup_iff.mp hnd
  rw [akeys_append] at hndAS
  have hndA : (akeys sA.active).Nodup := hndAS.of_append_left
  have hndS : (akeys swept).Nodup := hndAS.of_append_right
  have hdisj := List.disjoint_of_nodup_append hndAS
  cases hB : alookup sB.active host with
  | none =>
    have hnotB : host ∉ akeys sB.active := (alookup_eq_none_iff _ _).mp hB
    have hnotA : host ∉ akeys sA.active := fun hc =>
      hnotB ((akeys_perm hperm).mem_iff.mpr
        (by rw [akeys_append]; exact List.mem_append_left _ hc))
    have hA : alookup sA.active host = none := (alookup_eq_none_iff _ _).mpr hnotA
    rw [coreLog_new_eq hA, coreLog_new_eq hB]
    refine ⟨hlim, ?_, ?_, swept, ?_, hsw, hn, htot, hmax⟩
    · show (akeys (aset sB.active host (t, t))).Nodup
      rw [aset_eq_append _ _ _ hnotB, akeys_append]
      refine List.Nodup.append hnd (by simp [akeys]) ?_
      intro a ha hb
      simp [akeys] at hb
      rw [hb] at ha
      exact hnotB ha
    · intro e he
      show e.2.2 ≤ t
      rw [show ({ sB with active := aset sB.active host (t, t) } : Sessions).active
        = aset sB.active host (t, t) from rfl, aset_eq_append _ _ _ hnotB] at he
      rcases List.mem_append.mp he with h1 | h1
      · exact hbound e h1
      · simp at h1
        rw [h1]
    · show List.Perm (aset sB.active host (t, t)) (aset sA.active host (t, t) ++ swept)
      rw [aset_eq_append _ _ _ hnotB, aset_eq_append _ _ _ hnotA]
      exact (hperm.append_right _).trans (perm_snoc_append _ _ _)
  | some dur =>
    have hmemB : (host, dur) ∈ sB.active := alookup_mem hB
    have hinB : host ∈ akeys sB.active := List.mem_map_of_mem Prod.fst hmemB
    have hmemAS : (host, dur) ∈ sA.active ++ swept := hperm.mem_iff.mp hmemB
    by_cases hinA : host ∈ akeys sA.active
    · have hmemA : (host, dur) ∈ sA.active := by
        rcases List.mem_append.mp hmemAS with h1 | h1
        · exact h1
        · exact absurd (List.mem_map_of_mem Prod.fst h1) (fun hc => hdisj hinA hc)
      have hA : alookup sA.active host = some dur := mem_alookup hndA hmemA
      by_cases hidle : sB.inactive_limit ≤ t - dur.2
      · have hidleA : sA.inactive_limit ≤ t - dur.2 := by rw [hlim]; exact hidle
        rw [coreLog_close_eq hA hidleA, coreLog_close_eq hB hidle]
        refine ⟨hlim, ?_, ?_, swept, ?_, hsw, ?_, ?_, ?_⟩
        · show (akeys (aset sB.active host (t, t))).Nodup
          rw [akeys_aset_of_mem _ _ _ hinB]
          exact hnd
        · intro e he
          show e.2.2 ≤ t
          rcases mem_aset he with h1 | h1
          · rw [h1]
          · exact hbound e h1
        · exact perm_aset_sides _ hnd hperm hinA
        · show sA.nsessions + 1 = sB.nsessions + 1 + swept.length
          omega
        · show sA.total_length + (dur.2 - dur.1) =
            sB.total_length + (dur.2 - dur.1) + (swept.map durOf).sum
          omega
        · show max sA.max_length (dur.2 - dur.1) =
            max (max sB.max_length (dur.2 - dur.1)) (maxList (swept.map durOf))
          rw [hmax, Nat.max_assoc, Nat.max_comm (maxList (swept.map durOf)) (dur.2 - dur.1),
            ← Nat.max_assoc]
      · have hidleA : ¬ sA.inactive_limit ≤ t - dur.2 := by rw [hlim]; exact hidle
        rw [coreLog_extend_eq hA hidleA, coreLog_extend_eq hB hidle]
        refine ⟨hlim, ?_, ?_, swept, ?_, hsw, hn, htot, hmax⟩
        · show (akeys (aset sB.active host (dur.1, t))).Nodup
          rw [akeys_aset_of_mem _ _ _ hinB]
          exact hnd
        · intro e he
          show e.2.2 ≤ t
          rcases mem_aset he with h1 | h1
          · rw [h1]
          · exact hbound e h1
        · exact perm_aset_sides _ hnd hperm hinA
    · have hmemS : (host, dur) ∈ swept := by
        rcases List.mem_append.mp hmemAS with h1 | h1
        · exact absurd (List.mem_map_of_mem Prod.fst h1) hinA
        · exact h1
      have hidle : sB.inactive_limit ≤ t - dur.2 := by
        have h1 : dur.2 + sB.inactive_limit ≤ t := hsw (host, dur) hmemS
        omega
      have hA : alookup sA.active host = none := (alookup_eq_none_iff _ _).mpr hinA
      have hswperm := perm_cons_aerase hndS hmemS
      have hlen_s : swept.length = (aerase swept host).length + 1 := by
        have h1 := hswperm.length_eq
        simpa using h1
      have hsum_s : (swept.map durOf).sum =
          (dur.2 - dur.1) + ((aerase swept host).map durOf).sum := by
        have h1 := (hswperm.map durOf).sum_eq
        simpa [durOf] using h1
      have hmax_s : maxList (swept.map durOf) =
          max (dur.2 - dur.1) (maxList ((aerase swept host).map durOf)) := by
        have h1 := maxList_perm (hswperm.map durOf)
        simpa [maxList_cons, durOf] using h1
      rw [coreLog_new_eq hA, coreLog_close_eq hB hidle]
      refine ⟨hlim, ?_, ?_, aerase swept host, ?_, ?_, ?_, ?_, ?_⟩
      · show (akeys (aset sB.active host (t, t))).Nodup
        rw [akeys_aset_of_mem _ _ _ hinB]
        exact hnd
      · intro e he
        show e.2.2 ≤ t
        rcases mem_aset he with h1 | h1
        · rw [h1]
        · exact hbound e h1
      · show List.Perm (aset sB.active host (t, t))
          (aset sA.active host (t, t) ++ aerase swept host)
        rw [aset_eq_append _ _ _ hinA]
        exact perm_aset_swept _ hnd hperm hinB hinA
      · intro e he
        exact hsw e (List.mem_of_mem_filter he)
      · show sA.nsessions = sB.nsessions + 1 + (aerase swept host).length
        omega
      · show sA.total_length =
          sB.total_length + (dur.2 - dur.1) + ((aerase swept host).map durOf).sum
        omega
      · show sA.max_length =
          max (max sB.max_length (dur.2 - dur.1)) (maxList ((aerase swept host).map durOf))
        rw [hmax, hmax_s, ← Nat.max_assoc]

/-- Fold `Sessions.log` over a stream of (host, time) events. -/
def Sessions.runLog (s : Sessions) : List (String × Nat) → Sessions
  | [] => s
  | (h, t) :: rest => (s.log h t).runLog rest

/-- Fold the sweep-free `Sessions.logNoSweep` over the same stream. -/
def Sessions.runLogNoSweep (s : Sessions) : List (String × Nat) → Sessions
  | [] => s
  | (h, t) :: rest => (s.logNoSweep h t).runLogNoSweep rest

theorem runLog_rel : ∀ (events : List (String × Nat)) (t : Nat) (sA sB : Sessions),
    SweepRel t sA sB → (∀ e ∈ events, t ≤ e.2) →
    List.Pairwise (fun a b : String × Nat => a.2 ≤ b.2) events →
    ∃ t', SweepRel t' (sA.runLog events) (sB.runLogNoSweep events)
  | [], t, sA, sB, hrel, _, _ => ⟨t, hrel⟩
  | (h, t₁) :: rest, t, sA, sB, hrel, hall, hpair => by
    have h1 : SweepRel t₁ sA sB :=
      sweepRel_mono hrel (hall (h, t₁) (List.mem_cons_self _ _))
    have h2 : SweepRel t₁ (sA.log h t₁) (sB.logNoSweep h t₁) :=
      coreLog_rel (sweepPhase_rel h1) h
    rw [List.pairwise_cons] at hpair
    exact runLog_rel rest t₁ _ _ h2 (fun e he => hpair.1 e he) hpair.2

theorem sweepRel_final {t : Nat} {sA sB : Sessions} (h : SweepRel t sA sB) :
    sA.clearAll.nsessions = sB.clearAll.nsessions ∧
      sA.clearAll.total_length = sB.clearAll.total_length ∧
      sA.clearAll.max_length = sB.clearAll.max_length := by
  obtain ⟨hlim, hnd, hbound, swept, hperm, hsw, hn, htot, hmax⟩ := h
  have hlen := hperm.length_eq
  have hsum := (hperm.map durOf).sum_eq
  have hmaxp := maxList_perm (hperm.map durOf)
  rw [List.map_append] at hsum hmaxp
  rw [List.sum_append] at hsum
  rw [maxList_append] at hmaxp
  rw [List.length_append] at hlen
  refine ⟨?_, ?_, ?_⟩
  · rw [show sA.clearAll.nsessions = sA.nsessions + sA.active.length from
      saveFold_nsessions _ _,
      show sB.clearAll.nsessions = sB.nsessions + sB.active.length from
      saveFold_nsessions _ _]
    omega
  · rw [show sA.clearAll.total_length = sA.total_length + (sA.active.map durOf).sum from
      saveFold_total _ _,
      show sB.clearAll.total_length = sB.total_length + (sB.active.map durOf).sum from
      saveFold_total _ _]
    omega
  · rw [show sA.clearAll.max_length = max sA.max_length (maxList (sA.active.map durOf)) from
      saveFold_max _ _,
      show sB.clearAll.max_length = max sB.max_length (maxList (sB.active.map durOf)) from
      saveFold_max _ _]
    rw [hmax, hmaxp, Nat.max_assoc,
      Nat.max_comm (maxList (swept.map durOf)) (maxList (sA.active.map durOf))]

/-- The three running totals of a `Sessions` state. -/
def sessionStats (s : Sessions) : Nat × Nat × Nat :=
  (s.nsessions, s.total_length, s.max_length)

/-- C6: for every monotonically non-decreasing (host, time) stream, the
run with the periodic inactive-session sweep (`Sessions.log`, any sweep
interval `ci`, so in particular the source value 100000) produces
exactly the same final statistics — session count, total duration (hence
average), and maximum duration — and the same `summary_statistics`
result as the run that never sweeps. -/
theorem sweep_is_pure_optimization (lim ci : Nat) (events : List (String × Nat))
    (hmono : List.Chain' (fun a b : String × Nat => a.2 ≤ b.2) events) :
    sessionStats ((Sessions.mk lim [] ci 0 0 0 0).runLog events).clearAll =
      sessionStats ((Sessions.mk lim [] ci 0 0 0 0).runLogNoSweep events).clearAll ∧
    (((Sessions.mk lim [] ci 0 0 0 0).runLog events).summary_statistics).1 =
      (((Sessions.mk lim [] ci 0 0 0 0).runLogNoSweep events).summary_statistics).1 := by
  have hpair : List.Pairwise (fun a b : String × Nat => a.2 ≤ b.2) events := by
    have htr : IsTrans (String × Nat) (fun a b : String × Nat => a.2 ≤ b.2) :=
      ⟨fun _ _ _ h1 h2 => Nat.le_trans h1 h2⟩
    exact List.chain'_iff_pairwise.mp hmono
  have hinit : SweepRel 0 (Sessions.mk lim [] ci 0 0 0 0) (Sessions.mk lim [] ci 0 0 0 0) := by
    refine ⟨rfl, List.nodup_nil, ?_, [], ?_, ?_, rfl, rfl, ?_⟩
    · intro e he
      simp at he
    · simp
    · intro e he
      simp at he
    · simp [maxList]
  obtain ⟨t', hrel⟩ := runLog_rel events 0 _ _ hinit (fun e _ => Nat.zero_le _) hpair
  obtain ⟨h1, h2, h3⟩ := sweepRel_final hrel
  constructor
  · unfold sessionStats
    rw [h1, h2, h3]
  · simp only [Sessions.summary_statistics]
    rw [h1, h2, h3]

theorem sweep_is_pure_optimization_witness :
    List.Chain' (fun a b : String × Nat => a.2 ≤ b.2) [("a", 0), ("b", 1), ("a", 5000)] ∧
      sessionStats
        ((Sessions.mk 1800 [] 1 0 0 0 0).runLog [("a", 0), ("b", 1), ("a", 5000)]).clearAll =
      sessionStats
        ((Sessions.mk 1800 [] 1 0 0 0 0).runLogNoSweep
          [("a", 0), ("b", 1), ("a", 5000)]).clearAll :=
  ⟨by simp [List.chain'_cons],
    (sweep_is_pure_optimization 1800 1 [("a", 0), ("b", 1), ("a", 5000)]
      (by simp [List.chain'_cons])).1⟩

/-! ## Per-line orchestration of `main` (`process_log.py` lines 320-381) -/

theorem setItem_some_of_pos {d : TopKDict} (key value : Nat) (hk : 0 < d.k) :
    ∃ d', d.setItem key value = some d' ∧ d'.k = d.k := by
  cases hcur : alookup d.entries key with
  | some cur =>
    by_cases hlt : cur < value
    · exact ⟨_, setItem_update_eq hcur hlt, rfl⟩
    · exact ⟨_, setItem_noop_eq hcur hlt, rfl⟩
  | none =>
    by_cases hlen : d.entries.length < d.k
    · exact ⟨_, setItem_insert_eq hcur hlen, rfl⟩
    · cases hlast : d.entries.getLast? with
      | none =>
        exfalso
        rw [List.getLast?_eq_none_iff] at hlast
        rw [hlast] at hlen
        simp at hlen
        omega
      | some last =>
        by_cases hvl : last.2 < value
        · exact ⟨_, setItem_evict_eq hcur hlen hlast hvl, rfl⟩
        · exact ⟨_, setItem_reject_eq hcur hlen hlast hvl, rfl⟩

theorem update_some_of_pos : ∀ (ops : List (Nat × Nat)) (d : TopKDict), 0 < d.k →
    ∃ d', d.update ops = some d' ∧ d'.k = d.k
  | [], d, _ => ⟨d, rfl, rfl⟩
  | (key, v) :: rest, d, hk => by
    obtain ⟨d₁, hset, hk1⟩ := setItem_some_of_pos key v hk
    obtain ⟨d', hup, hk'⟩ := update_some_of_pos rest d₁ (by rw [hk1]; exact hk)
    refine ⟨d', ?_, by rw [hk', hk1]⟩
    simp only [TopKDict.update]
    rw [hset]
    exact hup

/-- The running state threaded through `main`'s per-line loop:
`host_requests` and `resource_bytes` model the two `Counter`s,
`blocked_lines` records the lines written to the blocked-requests
file. -/
structure MainState where
  host_requests : List (String × Nat)
  resource_bytes : List (String × Nat)
  recent_timestamps : List Nat
  top_hours : TopKDict
  block_list : BlockList
  sessions : Sessions
  blocked_lines : List String
  deriving DecidableEq, Repr

/-- The initial structures of `main` (lines 320-326). -/
def initMainState : MainState :=
  ⟨[], [], [], TopKDict.empty 10, BlockList.init 3 20 300, Sessions.init 1800, []⟩

/-- Increment of a `Counter`: `c[k] += n` (missing keys count as 0). -/
def counterAdd (c : List (String × Nat)) (k : String) (n : Nat) : List (String × Nat) :=
  match alookup c k with
  | some m => aset c k (m + n)
  | none => aset c k n

/-- Python `request.split()`: whitespace tokenization dropping empty
tokens (spaces are the only whitespace inside the request field of a
matched log line). -/
def words (s : String) : List String :=
  (s.splitOn " ").filter (fun w => !(w = "" : Bool))

/-- One iteration of `main`'s loop (lines 340-381) on an already-parsed
record: count the host request, advance the hourly window, log the
session; then — only if the status code is not 400 and the request
tokenizes into at least method and resource — account the resource bytes
and, for `POST /login` requests, consult the block list, recording the
line if the request is blocked.  `none` propagates the `IndexError` of
`TopKDict.__setitem__` with capacity 0 (unreachable: `main` uses
capacity 10). -/
def processRecord (st : MainState) (line host : String) (time : Nat) (request : String)
    (code nbytes : Nat) : Option MainState :=
  match st.top_hours.update (closeExpired time st.recent_timestamps).1 with
  | none => none
  | some th =>
    let st1 : MainState :=
      { st with host_requests := counterAdd st.host_requests host 1,
                recent_timestamps := (closeExpired time st.recent_timestamps).2 ++ [time],
                top_hours := th,
                sessions := st.sessions.log host time }
    if code = 400 then some st1
    else
      match words request with
      | method :: resource :: _ =>
        let st2 : MainState :=
          { st1 with resource_bytes := counterAdd st1.resource_bytes resource nbytes }
        if method = "POST" ∧ resource = "/login" then
          some { st2 with
            block_list := (st2.block_list.handle host time (decide (code = 200))).2,
            blocked_lines :=
              if (st2.block_list.handle host time (decide (code = 200))).1 then
                st2.blocked_lines ++ [line]
              else st2.blocked_lines }
        else
          some st2
      | _ => some st1

/-- C9: for every parsed line whose status code equals 400, the loop
skips resource-byte accounting and login-guard handling entirely — for
every request field, in particular those that tokenize cleanly — while
the line still counts toward host request totals, the hourly window, and
session tracking; `resource_bytes`, `block_list` and the blocked-lines
log are exactly those of the incoming state. -/
theorem code400_skips_resource_and_login (st : MainState) (line host : String)
    (time : Nat) (request : String) (nbytes : Nat) (hk : 0 < st.top_hours.k) :
    ∃ th, st.top_hours.update (closeExpired time st.recent_timestamps).1 = some th ∧
      processRecord st line host time request 400 nbytes =
        some { st with
          host_requests := counterAdd st.host_requests host 1,
          recent_timestamps := (closeExpired time st.recent_timestamps).2 ++ [time],
          top_hours := th,
          sessions := st.sessions.log host time } := by
  obtain ⟨th, hup, _⟩ := update_some_of_pos _ st.top_hours hk
  refine ⟨th, hup, ?_⟩
  unfold processRecord
  rw [hup]
  rfl

theorem code400_skips_resource_and_login_witness :
    0 < initMainState.top_hours.k ∧
      ∃ th, initMainState.top_hours.update
          (closeExpired 0 initMainState.recent_timestamps).1 = some th ∧
        processRecord initMainState "rawline" "h" 0 "GET /a HTTP/1.0" 400 7 =
          some { initMainState with
            host_requests := counterAdd initMainState.host_requests "h" 1,
            recent_timestamps := (closeExpired 0 initMainState.recent_timestamps).2 ++ [0],
            top_hours := th,
            sessions := initMainState.sessions.log "h" 0 } :=
  ⟨by decide,
    code400_skips_resource_and_login initMainState "rawline" "h" 0 "GET /a HTTP/1.0" 7
      (by decide)⟩

/-! ## `parse_line` and `LINE_PATTERN` (`process_log.py` lines 13-74)

`LINE_PATTERN` is `(.*) - - \[(.+) -0400\] ["“](.+)["”] (.+) (.+)` and
`parse_line` uses `re.match`: anchored at the start of the line, free to
stop before its end, with leftmost-greedy backtracking semantics.  The
pattern is a plain concatenation of literals, one-character classes and
greedy dot-groups (`.` matches anything but a newline), so a
backtracking matcher that tries the longest candidate of each group
first, in left-to-right group order, computes exactly Python's match. -/

inductive Pat where
  | lit : List Char → Pat
  | cls : List Char → Pat
  | star : Pat
  | plus : Pat
  deriving DecidableEq, Repr

/-- Consume a literal from the front of the input. -/
def stripLit : List Char → List Char → Option (List Char)
  | [], s => some s
  | _ :: _, [] => none
  | c :: p, x :: s => if x = c then stripLit p s else none

/-- Meaning of `.` in a pattern without `re.DOTALL`: anything except a newline. -/
def isDot (c : Char) : Bool := !(c = '\n' : Bool)

/-- Candidate (prefix, suffix) splits for a greedy dot-group: longest
prefix of non-newline characters first, down to `minLen` — the order a
greedy backtracking engine tries. -/
def dotSplits (s : List Char) (minLen : Nat) : List (List Char × List Char) :=
  (List.range ((s.takeWhile isDot).length + 1)).reverse.filterMap
    (fun i => if minLen ≤ i then some (s.take i, s.drop i) else none)

/-- Backtracking matcher for a component sequence, anchored at the start
(like `re.match`) but free to stop before the end of the input; returns
the captured groups (one per `star`/`plus`) on success.  The first
success in greedy candidate order wins. -/
def matchSeq : List Pat → List Char → Option (List (List Char))
  | [], _ => some []
  | Pat.lit l :: rest, s =>
    match stripLit l s with
    | some s' => matchSeq rest s'
    | none => none
  | Pat.cls cs :: rest, s =>
    match s with
    | [] => none
    | x :: s' => if cs.contains x then matchSeq rest s' else none
  | Pat.star :: rest, s =>
    (dotSplits s 0).findSome? (fun p => (matchSeq rest p.2).map (fun gs => p.1 :: gs))
  | Pat.plus :: rest, s =>
    (dotSplits s 1).findSome? (fun p => (matchSeq rest p.2).map (fun gs => p.1 :: gs))

/-- Pattern `LINE_PATTERN` (line 14). -/
def linePattern : List Pat :=
  [Pat.star, Pat.lit (" - - [".data), Pat.plus, Pat.lit (" -0400] ".data),
   Pat.cls ['"', '“'], Pat.plus, Pat.cls ['"', '”'], Pat.lit (" ".data),
   Pat.plus, Pat.lit (" ".data), Pat.plus]

/-- The `MONTHS` table (lines 16-17). -/
def MONTHS : List (List Char × Nat) :=
  [("Jan".data, 1), ("Feb".data, 2), ("Mar".data, 3), ("Apr".data, 4), ("May".data, 5),
   ("Jun".data, 6), ("Jul".data, 7), ("Aug".data, 8), ("Sep".data, 9), ("Oct".data, 10),
   ("Nov".data, 11), ("Dec".data, 12)]

def digitVal (c : Char) : Option Nat :=
  if '0' ≤ c ∧ c ≤ '9' then some (c.toNat - '0'.toNat) else none

/-- Python `int()` on the sliced fields: the log's numeric fields are
plain digit runs, so we model `int` as digit-string parsing, `none`
being the `ValueError` it raises on anything else. -/
def parseDigits (l : List Char) : Option Nat :=
  if l = [] then none
  else l.foldl (fun acc c => acc.bind (fun a => (digitVal c).map (fun d => a * 10 + d))) (some 0)

/-- Python slice `v[a:b]` (never out of range, possibly short). -/
def pySlice (l : List Char) (a b : Nat) : List Char := (l.drop a).take (b - a)

structure Timestamp where
  year : Nat
  month : Nat
  day : Nat
  hour : Nat
  minute : Nat
  second : Nat
  deriving DecidableEq, Repr

def daysInMonth (y m : Nat) : Nat :=
  if m = 2 then (if (y % 4 = 0 ∧ y % 100 ≠ 0) ∨ y % 400 = 0 then 29 else 28)
  else if m = 4 ∨ m = 6 ∨ m = 9 ∨ m = 11 then 30 else 31

/-- Construction `datetime(...)` with its range validation; `none`
models the `ValueError` it raises on out-of-range components. -/
def mkDatetime (y m d hh mm ss : Nat) : Option Timestamp :=
  if 1 ≤ y ∧ y ≤ 9999 ∧ 1 ≤ m ∧ m ≤ 12 ∧ 1 ≤ d ∧ d ≤ daysInMonth y m ∧
      hh ≤ 23 ∧ mm ≤ 59 ∧ ss ≤ 59 then
    some ⟨y, m, d, hh, mm, ss⟩
  else none

/-- Function `parse_timestamp` (lines 20-41): fixed-offset field extraction;
`none` models the `KeyError`/`ValueError` escaping it. -/
def parse_timestamp (v : List Char) : Option Timestamp := do
  let y ← parseDigits (pySlice v 7 11)
  let m ← MONTHS.findSome? (fun e => if e.1 = pySlice v 3 6 then some e.2 else none)
  let d ← parseDigits (pySlice v 0 2)
  let hh ← parseDigits (pySlice v 12 14)
  let mm ← parseDigits (pySlice v 15 17)
  let ss ← parseDigits (pySlice v 18 20)
  mkDatetime y m d hh mm ss

/-- Function `parse_line` (lines 44-74): match `LINE_PATTERN`, then convert the
groups; `none` models the `ValueError` raised on a non-matching line (or
escaping the `int`/timestamp conversions). -/
def parse_line (line : String) :
    Option (List Char × Timestamp × List Char × Nat × Nat) :=
  match matchSeq linePattern line.data with
  | some [host, rawts, request, codeS, nbytesS] => do
    let ts ← parse_timestamp rawts
    let code ← parseDigits codeS
    let nbytes ← if nbytesS = ['-'] then some 0 else parseDigits nbytesS
    some (host, ts, request, code, nbytes)
  | _ => none

/-- Naive substring occurrence test. -/
def occursIn (p : List Char) : List Char → Bool
  | [] => p.isEmpty
  | c :: rest => p.isPrefixOf (c :: rest) || occursIn p rest

theorem occursIn_of_isPrefixOf {p s : List Char} (h : p.isPrefixOf s = true) :
    occursIn p s = true := by
  cases s with
  | nil =>
    cases p with
    | nil => rfl
    | cons c cs => simp [List.isPrefixOf] at h
  | cons c rest => simp [occursIn, h]

theorem occursIn_drop {p s : List Char} (n : Nat) (h : occursIn p (s.drop n) = true) :
    occursIn p s = true := by
  induction s generalizing n with
  | nil => simpa using h
  | cons c rest ih =>
    cases n with
    | zero => simpa using h
    | succ m =>
      simp only [List.drop_succ_cons] at h
      simp [occursIn, ih m h]

theorem stripLit_spec {l s s' : List Char} (h : stripLit l s = some s') :
    s' = s.drop l.length ∧ l.isPrefixOf s = true := by
  induction l generalizing s with
  | nil =>
    simp only [stripLit, Option.some.injEq] at h
    rw [← h]
    exact ⟨rfl, by cases s <;> rfl⟩
  | cons c p ih =>
    cases s with
    | nil => simp [stripLit] at h
    | cons x s0 =>
      simp only [stripLit] at h
      by_cases hx : x = c
      · rw [if_pos hx] at h
        obtain ⟨h1, h2⟩ := ih h
        subst hx
        refine ⟨by simpa using h1, ?_⟩
        simp [List.isPrefixOf, h2]
      · rw [if_neg hx] at h
        exact absurd h (by simp)

theorem dotSplits_snd {s : List Char} {m : Nat} {pr : List Char × List Char}
    (h : pr ∈ dotSplits s m) : ∃ i, pr.2 = s.drop i := by
  unfold dotSplits at h
  rw [List.mem_filterMap] at h
  obtain ⟨i, _, hf⟩ := h
  by_cases hm : m ≤ i
  · rw [if_pos hm] at hf
    exact ⟨i, by rw [← Option.some.inj hf]⟩
  · rw [if_neg hm] at hf
    exact absurd hf (by simp)

/-- A successful match consumed every literal of the pattern from some
suffix of the input, so each literal occurs in the input. -/
theorem matchSeq_lit_occurs : ∀ (ps : List Pat) (s : List Char) (gs : List (List Char)),
    matchSeq ps s = some gs → ∀ l, Pat.lit l ∈ ps → occursIn l s = true := by
  intro ps
  induction ps with
  | nil =>
    intro s gs _ l hl
    simp at hl
  | cons p rest ih =>
    intro s gs h l hl
    rcases List.mem_cons.mp hl with hl1 | hl1
    · subst hl1
      simp only [matchSeq] at h
      cases hs : stripLit l s with
      | none =>
        rw [hs] at h
        exact absurd h (by simp)
      | some s' =>
        exact occursIn_of_isPrefixOf (stripLit_spec hs).2
    · cases p with
      | lit l' =>
        simp only [matchSeq] at h
        cases hs : stripLit l' s with
        | none =>
          rw [hs] at h
          exact absurd h (by simp)
        | some s' =>
          rw [hs] at h
          have h1 := ih s' gs h l hl1
          rw [(stripLit_spec hs).1] at h1
          exact occursIn_drop _ h1
      | cls cs =>
        simp only [matchSeq] at h
        cases s with
        | nil =>
          exact absurd (h : (none : Option (List (List Char))) = some gs) (by simp)
        | cons x s' =>
          have h' : (if cs.contains x then matchSeq rest s' else none) = some gs := h
          by_cases hx : cs.contains x
          · rw [if_pos hx] at h'
            exact occursIn_drop 1 (by simpa using ih s' gs h' l hl1)
          · rw [if_neg hx] at h'
            exact absurd h' (by simp)
      | star =>
        simp only [matchSeq] at h
        obtain ⟨pr, hmem, hsome⟩ := List.exists_of_findSome?_eq_some h
        cases hm : matchSeq rest pr.2 with
        | none =>
          rw [hm] at hsome
          exact absurd hsome (by simp)
        | some gs' =>
          obtain ⟨i, hi⟩ := dotSplits_snd hmem
          have h1 := ih pr.2 gs' hm l hl1
          rw [hi] at h1
          exact occursIn_drop i h1
      | plus =>
        simp only [matchSeq] at h
        obtain ⟨pr, hmem, hsome⟩ := List.exists_of_findSome?_eq_some h
        cases hm : matchSeq rest pr.2 with
        | none =>
          rw [hm] at hsome
          exact absurd hsome (by simp)
        | some gs' =>
          obtain ⟨i, hi⟩ := dotSplits_snd hmem
          have h1 := ih pr.2 gs' hm l hl1
          rw [hi] at h1
          exact occursIn_drop i h1

/-- C10 (amended): `parse_line` fails (raises, modelled `none`) on every
line that does not contain the literal substring ` -0400] ` anywhere; in
particular a simple well-formed line whose timezone field is replaced by
a different offset such as `+0000` raises.  The universal claim as
stated is false, because the pattern keys on the literal ` -0400] `
occurring anywhere, not on the timezone field: see the counterexample,
where the literal occurs inside the request field. -/
theorem parse_line_requires_offset_literal (line : String)
    (h : occursIn (" -0400] ".data) line.data = false) :
    parse_line line = none := by
  have h1 : matchSeq linePattern line.data = none := by
    cases hm : matchSeq linePattern line.data with
    | none => rfl
    | some gs =>
      exfalso
      have h2 := matchSeq_lit_occurs linePattern line.data gs hm (" -0400] ".data)
        (by decide)
      rw [h2] at h
      exact absurd h (by simp)
  unfold parse_line
  rw [h1]

theorem parse_line_requires_offset_literal_witness :
    occursIn (" -0400] ".data)
        ("199.72.81.55 - - [01/Jul/1995:00:00:01 +0000] \"GET /history/apollo/ HTTP/1.0\" 200 6245").data
      = false ∧
    parse_line
        "199.72.81.55 - - [01/Jul/1995:00:00:01 +0000] \"GET /history/apollo/ HTTP/1.0\" 200 6245"
      = none :=
  ⟨by decide,
    parse_line_requires_offset_literal
      "199.72.81.55 - - [01/Jul/1995:00:00:01 +0000] \"GET /history/apollo/ HTTP/1.0\" 200 6245"
      (by decide)⟩

/-- C10 counterexample: the first line is well-formed (`parse_line`
succeeds on it); the second is identical except its timezone field reads
`+0000` — yet `parse_line` succeeds there too, instead of raising,
because the request field contains the literal ` -0400] ` on which the
pattern actually keys: the greedy timestamp group absorbs the altered
offset and matching resumes at the embedded literal. -/
theorem parse_line_offset_counterexample :
    parse_line ("h - - [01/Jul/1995:00:00:01 " ++ "-0400" ++ "] \"x -0400] \"y\" 7 8\" 200 -")
        = some ("h".data, ⟨1995, 7, 1, 0, 0, 1⟩, "y\" 7 8".data, 200, 0) ∧
    parse_line ("h - - [01/Jul/1995:00:00:01 " ++ "+0000" ++ "] \"x -0400] \"y\" 7 8\" 200 -")
        = some ("h".data, ⟨1995, 7, 1, 0, 0, 1⟩, "y\" 7 8".data, 200, 0) := by
  refine ⟨by decide, by decide⟩
